import Mathlib

/-!
# yaml-sort: key sorting, quoting and line wrapping

A shallow embedding of `src/yaml-sort.go` (functions `sortKeys`, `dumpYAML`,
`bytesReplace`, `wrapLine`, `splitLine` and the file loop of `main`) and
theorems about it.

Conventions of the embedding

* A Go `string` / `[]byte` is a `List Char`; every list element stands for one
  byte, so `len(s)` is `List.length` and `s[i:j]` is `take`/`drop`.
* A Go `int` is an `Int`.  The only arithmetic in the embedded code is
  `lineWidth - len(indentStr)`, `i--` and `i+1` on values bounded by string
  lengths, so no 64-bit wrap-around can occur.
* A Go run-time panic, an error returned by the YAML encoder and a loop that
  does not finish within the supplied fuel are the three `Fault`s.
* A Go map is an association list.  Go fixes no iteration order for a map:
  the Go value is the list up to permutation, and every permutation of the
  entries is a possible enumeration.  The list order of the embedding records
  the sequence of insertions only.  `for key := range v` visits the entries
  in list order; since the theorems quantify over all lists they hold for
  whichever order Go picks.  Statements about a returned map are order-free
  (membership, lookup, permutation) or are equations between lists, which
  imply the equation between the Go values.
* The decoder `yaml.Unmarshal`, the encoder `yaml.Marshal` and the files and
  streams read and written by `main` are parameters of the embedding; the
  actions of `main` are collected as a list of `Event`s.
-/

namespace YamlSort

/-! ## Data model -/

/-- Go strings and byte slices: one list element per byte. -/
abbrev GoString := List Char

/-- Ways in which an embedded Go function can fail to return a value. -/
inductive Fault where
  /-- a Go run-time panic (failed type assertion, negative repeat count, bad slice bound) -/
  | panic
  /-- the loop was still running when the fuel was used up -/
  | outOfFuel
  /-- the YAML encoder returned an error -/
  | encode
  deriving DecidableEq, Repr

/-- Dynamic values of non-container type held in an `interface{}`. -/
inductive Scalar where
  | str (s : GoString)
  | int (n : Int)
  | bool (b : Bool)
  | float (bits : Nat)
  deriving DecidableEq, Repr

/-- Keys of a `map[interface{}]interface{}`: `nil` or a scalar of any type. -/
inductive Key where
  | null
  | scalar (a : Scalar)
  deriving DecidableEq, Repr

/-- The decoded YAML document, a Go `interface{}`: `nil`, a scalar, a
`[]interface{}`, a `map[interface{}]interface{}` or a `map[string]interface{}`.
The decoder of `gopkg.in/yaml.v3` builds a `map[string]interface{}` for a
mapping whose keys are all strings and a `map[interface{}]interface{}` for any
other mapping.  The type switch of `sortKeys` has a case for the second map
type only. -/
inductive Value where
  | null
  | scalar (a : Scalar)
  | seq (items : List Value)
  /-- a `map[interface{}]interface{}` -/
  | map (entries : List (Key × Value))
  /-- a `map[string]interface{}` -/
  | strMap (entries : List (GoString × Value))
  deriving Repr

/-- The key holding the Go string `s`. -/
def Key.ofString (s : GoString) : Key := .scalar (.str s)

/-- Whether the dynamic type of a key is `string`. -/
def Key.isString : Key → Bool
  | .scalar (.str _) => true
  | _ => false

/-- The keys of a mapping, in the order of the entry list. -/
def keysOf (entries : List (Key × Value)) : List Key := entries.map Prod.fst

/-! ## Go primitives used by `sortKeys` -/

/-- Go map indexing `v[key]`: the value bound to `key`, or `nil` when absent. -/
def mapIndex (entries : List (Key × Value)) (key : Key) : Value :=
  match entries with
  | [] => .null
  | (k, x) :: rest => if k = key then x else mapIndex rest key

/-- Go map assignment `m[key] = x`: overwrite the binding of `key` if there is
one, otherwise add the binding.  The new binding is put last in the list; the
position records the sequence of insertions and is no property of the Go map. -/
def mapAssign (entries : List (Key × Value)) (key : Key) (x : Value) : List (Key × Value) :=
  match entries with
  | [] => [(key, x)]
  | (k, y) :: rest => if k = key then (k, x) :: rest else (k, y) :: mapAssign rest key x

/-- The type assertion `key.(string)`: panics unless the key is a string. -/
def assertString : Key → Except Fault GoString
  | .scalar (.str s) => .ok s
  | _ => .error .panic

/-- Go string comparison `a <= b`: byte-wise lexicographic. -/
def strLe : GoString → GoString → Bool
  | [], _ => true
  | _ :: _, [] => false
  | a :: as, b :: bs => decide (a.toNat < b.toNat) || (decide (a.toNat = b.toNat) && strLe as bs)

/-- Go `sort.Strings`: the keys in increasing byte-wise order. -/
def sortStrings (keys : List GoString) : List GoString :=
  List.insertionSort (fun a b => strLe a b = true) keys

/-- Run a fallible function over a list, left to right, stopping at the first fault. -/
def mapExcept {α β : Type} (f : α → Except Fault β) : List α → Except Fault (List β)
  | [] => .ok []
  | a :: as =>
    match f a with
    | .error e => .error e
    | .ok b =>
      match mapExcept f as with
      | .error e => .error e
      | .ok bs => .ok (b :: bs)

/-- Left fold with a fallible step, stopping at the first fault. -/
def foldExcept {α β : Type} (f : β → α → Except Fault β) : β → List α → Except Fault β
  | acc, [] => .ok acc
  | acc, a :: as =>
    match f acc a with
    | .error e => .error e
    | .ok acc2 => foldExcept f acc2 as

/-! ## `sortKeys` (src/yaml-sort.go 144-163) -/

/-- The function `sortKeys`.
For a `map[interface{}]interface{}`: collect the keys with `key.(string)`,
`sort.Strings` them, and insert `sorted[key] = sortKeys(v[key])` in that
order into a fresh map.  For a `[]interface{}`: replace every element by its
`sortKeys`.  Any other value, a `map[string]interface{}` included, is
returned as it is (`return data`). -/
def sortKeys : Value → Except Fault Value
  | .map v =>
    match mapExcept (fun e => assertString e.1) v with
    | .error e => .error e
    | .ok keys =>
      match foldExcept (fun sorted key =>
          match sortKeys (mapIndex v (Key.ofString key)) with
          | .error e => .error e
          | .ok r => .ok (mapAssign sorted (Key.ofString key) r)) [] (sortStrings keys) with
      | .error e => .error e
      | .ok sorted => .ok (.map sorted)
  | .seq v =>
    match mapExcept (fun item => sortKeys item.1) v.attach with
    | .error e => .error e
    | .ok items => .ok (.seq items)
  | data => .ok data
termination_by v => sizeOf v
decreasing_by
  · have key_lt : ∀ (es : List (Key × Value)) (k : Key),
        sizeOf (mapIndex es k) < sizeOf (Value.map es) := by
      intro es k
      induction es with
      | nil => simp [mapIndex]
      | cons e rest ih =>
        obtain ⟨k2, x⟩ := e
        simp only [mapIndex]
        split
        · simp; omega
        · simp at ih ⊢; omega
    exact key_lt _ _
  · have := List.sizeOf_lt_of_mem item.2
    simp only [Value.seq.sizeOf_spec]
    omega

/-! ## Predicates on value trees -/

mutual
/-- Whether every `map[interface{}]interface{}` that `sortKeys` visits, at every
nesting depth through sequences and such maps, satisfies `p`.  A
`map[string]interface{}` is not visited: its keys are strings and distinct by
its type, and `sortKeys` does not look at its values. -/
def Value.allMaps (p : List (Key × Value) → Bool) : Value → Bool
  | .null => true
  | .scalar _ => true
  | .seq items => allMapsItems p items
  | .map entries => p entries && allMapsEntries p entries
  | .strMap _ => true
/-- The predicate `Value.allMaps` on every element of a sequence. -/
def allMapsItems (p : List (Key × Value) → Bool) : List Value → Bool
  | [] => true
  | x :: xs => x.allMaps p && allMapsItems p xs
/-- The predicate `Value.allMaps` on every value bound in a mapping. -/
def allMapsEntries (p : List (Key × Value) → Bool) : List (Key × Value) → Bool
  | [] => true
  | (_, x) :: es => x.allMaps p && allMapsEntries p es
end

/-- Every key of every mapping that `sortKeys` visits is a string. -/
def Value.stringKeys (v : Value) : Bool :=
  v.allMaps (fun es => (keysOf es).all Key.isString)

/-- No mapping that `sortKeys` visits binds a key twice (true of every Go map). -/
def Value.uniqueKeys (v : Value) : Bool :=
  v.allMaps (fun es => decide (keysOf es).Nodup)

/-- The order on keys: byte-wise order on string keys; other keys are not ordered. -/
def keyLe : Key → Key → Bool
  | .scalar (.str a), .scalar (.str b) => strLe a b
  | _, _ => false

/-- The key list is in non-decreasing order: each key is `keyLe` every later key. -/
def keysSorted (keys : List Key) : Bool :=
  decide (keys.Pairwise (fun a b => keyLe a b = true))

/-- Every mapping that `sortKeys` visits has its entry list in non-decreasing
byte-wise key order. -/
def Value.mapsSorted (v : Value) : Bool :=
  v.allMaps (fun es => keysSorted (keysOf es))

/-- The two key lists hold the same set of keys. -/
def sameKeySet (ks1 ks2 : List Key) : Bool :=
  ks1.all (fun k => decide (k ∈ ks2)) && ks2.all (fun k => decide (k ∈ ks1))

mutual
/-- The tree `w` has the shape of `v` with the same key set in every
corresponding mapping that `sortKeys` visits: equal scalars, sequences of equal
length agreeing element by element, mappings with equal key sets whose values
agree key by key, and `map[string]interface{}` values with the same keys. -/
def keysAgree : Value → Value → Bool
  | .null, .null => true
  | .scalar a, .scalar b => decide (a = b)
  | .seq xs, .seq ys => keysAgreeItems xs ys
  | .map es, .map fs => sameKeySet (keysOf es) (keysOf fs) && keysAgreeEntries es fs
  | .strMap es, .strMap fs => decide (es.map Prod.fst = fs.map Prod.fst)
  | _, _ => false
/-- The relation `keysAgree` position by position. -/
def keysAgreeItems : List Value → List Value → Bool
  | [], [] => true
  | x :: xs, y :: ys => keysAgree x y && keysAgreeItems xs ys
  | _, _ => false
/-- Every value bound in the first mapping agrees with the value bound to the
same key in `fs`. -/
def keysAgreeEntries : List (Key × Value) → List (Key × Value) → Bool
  | [], _ => true
  | (k, x) :: es, fs => keysAgree x (mapIndex fs k) && keysAgreeEntries es fs
end

/-- The string held by a string key (the empty string for any other key). -/
def Key.toStr : Key → GoString
  | .scalar (.str s) => s
  | _ => []

/-- The value returned by `sortKeys`, and `nil` where it faults. -/
def sortKeysD (v : Value) : Value :=
  match sortKeys v with
  | .ok r => r
  | .error _ => .null

/-! ## Go string primitives used by `dumpYAML`, `wrapLine` and `splitLine` -/

/-- The single-quote byte. -/
def singleQuote : Char := Char.ofNat 39

/-- The double-quote byte. -/
def doubleQuote : Char := Char.ofNat 34

/-- The newline byte. -/
def newline : Char := Char.ofNat 10

/-- Whether `p` is an initial segment of `s`. -/
def startsWith : GoString → GoString → Bool
  | _, [] => true
  | [], _ :: _ => false
  | c :: cs, d :: ds => decide (c = d) && startsWith cs ds

/-- The scan of `strings.Replace(s, old, new, -1)` for a non-empty `old`:
`skip` counts the bytes of a match at an earlier position that are still to be
passed over. -/
def replaceScan (old new : GoString) : Nat → GoString → GoString
  | _, [] => []
  | skip + 1, _ :: cs => replaceScan old new skip cs
  | 0, c :: cs =>
    if startsWith (c :: cs) old then new ++ replaceScan old new (old.length - 1) cs
    else c :: replaceScan old new 0 cs

/-- Go `strings.Replace(s, old, new, -1)`: every non-overlapping instance of
`old`, found left to right, is replaced by `new`.  With an empty `old` the
replacement is inserted at the start and after every element (one element
per UTF-8 sequence, which is exact for ASCII text). -/
def stringsReplaceAll (s old new : GoString) : GoString :=
  match old with
  | [] => new ++ (s.map (fun c => c :: new)).flatten
  | _ :: _ => replaceScan old new 0 s

/-- The scan of `strings.Split(s, sep)` for a non-empty `sep`: `cur` is the
piece being collected, `skip` the bytes of a separator still to be passed over. -/
def splitScan (sep : GoString) : Nat → GoString → GoString → List GoString
  | _, cur, [] => [cur]
  | skip + 1, cur, _ :: cs => splitScan sep skip cur cs
  | 0, cur, c :: cs =>
    if startsWith (c :: cs) sep then cur :: splitScan sep (sep.length - 1) [] cs
    else splitScan sep 0 (cur ++ [c]) cs

/-- Go `strings.Split(s, sep)`: the pieces of `s` between the separators; a
string without separator gives the one-element list of itself.  With an empty
`sep` the string is split after every element. -/
def stringsSplit (s sep : GoString) : List GoString :=
  match sep with
  | [] => s.map (fun c => [c])
  | _ :: _ => splitScan sep 0 [] s

/-- Go `strings.Join(parts, sep)`. -/
def stringsJoin : List GoString → GoString → GoString
  | [], _ => []
  | [p], _ => p
  | p :: q :: rest, sep => p ++ sep ++ stringsJoin (q :: rest) sep

/-- Go `strings.Repeat(s, count)`: panics on a negative count. -/
def stringsRepeat (s : GoString) (count : Int) : Except Fault GoString :=
  if count < 0 then .error .panic else .ok (List.replicate count.toNat s).flatten

/-! ## `bytesReplace` (src/yaml-sort.go 165-167) -/

/-- The function `bytesReplace`: `strings.Replace(string(input), old, new, -1)`. -/
def bytesReplace (input old new : GoString) : GoString :=
  stringsReplaceAll input old new

/-! ## `splitLine` (src/yaml-sort.go 182-202) -/

/-- The inner loop `for ; i >= 0; i-- { if s[i] == ' ' { ...; break } }` started
at index `i`: the value of `i` when the loop is left, which is the index of
the nearest space at or before the start, or `-1` when there is none.  (The
indices read are at most `width`, which the guard of the outer loop keeps
below `len(s)`.) -/
def scanBack (s : GoString) : Nat → Int
  | 0 => if s[0]? = some ' ' then 0 else -1
  | i + 1 => if s[i + 1]? = some ' ' then ((i + 1 : Nat) : Int) else scanBack s i

/-- The outer loop `for len(s) > width { ... }` of `splitLine` and the code
after it, with `fuel` bounding the number of iterations.  One iteration:
`i` starts at `width`; the inner loop runs only if `width >= 0`; if it found
a space at `i`, the part `s[:i]` is appended and `s` becomes `s[i+1:]`;
if `i == -1` afterwards, the part `s[:width]` is appended and `s` becomes
`s[width:]` (a panic for `width = -1`, where the inner loop did not run);
for `width < -1` the iteration changes nothing. -/
def splitLineLoop : Nat → GoString → Int → List GoString → Except Fault (List GoString)
  | 0, _, _, _ => .error .outOfFuel
  | fuel + 1, s, width, parts =>
    if (s.length : Int) > width then
      let i : Int := if width < 0 then width else scanBack s width.toNat
      if 0 ≤ i then
        splitLineLoop fuel (s.drop (i.toNat + 1)) width (parts ++ [s.take i.toNat])
      else if i = -1 then
        if width < 0 then .error .panic
        else splitLineLoop fuel (s.drop width.toNat) width (parts ++ [s.take width.toNat])
      else splitLineLoop fuel s width parts
    else if s.length > 0 then .ok (parts ++ [s])
    else .ok parts

/-- The function `splitLine`, run for at most `fuel` iterations of its outer loop. -/
def splitLine (fuel : Nat) (s : GoString) (width : Int) : Except Fault (List GoString) :=
  splitLineLoop fuel s width []

/-! ## `wrapLine` (src/yaml-sort.go 169-180) -/

/-- The loop `for i, part := range parts` of `wrapLine`, from index `i` on:
part 0 becomes `indentStr + part`, every later part becomes
`indentStr + strings.Repeat(" ", lineWidth) + part`. -/
def wrapParts (indentStr : GoString) (lineWidth : Int) :
    Nat → List GoString → Except Fault (List GoString)
  | _, [] => .ok []
  | 0, part :: rest =>
    match wrapParts indentStr lineWidth 1 rest with
    | .error e => .error e
    | .ok ps => .ok ((indentStr ++ part) :: ps)
  | i + 1, part :: rest =>
    match stringsRepeat [' '] lineWidth with
    | .error e => .error e
    | .ok pad =>
      match wrapParts indentStr lineWidth (i + 2) rest with
      | .error e => .error e
      | .ok ps => .ok ((indentStr ++ pad ++ part) :: ps)

/-- The function `wrapLine`. -/
def wrapLine (fuel : Nat) (line : GoString) (lineWidth indent : Int) : Except Fault GoString :=
  match stringsRepeat [' '] indent with
  | .error e => .error e
  | .ok indentStr =>
    match splitLine fuel line (lineWidth - indentStr.length) with
    | .error e => .error e
    | .ok parts =>
      match wrapParts indentStr lineWidth 0 parts with
      | .error e => .error e
      | .ok wrapped => .ok (stringsJoin wrapped [newline])

/-! ## `dumpYAML` (src/yaml-sort.go 121-142) -/

/-- The quoting step of `dumpYAML` (lines 127-129): with `quotingStyle == "double"`
every `'` of the encoder text is replaced by `"`. -/
def quoteText (yamlData quotingStyle : GoString) : GoString :=
  if quotingStyle = "double".toList then bytesReplace yamlData [singleQuote] [doubleQuote]
  else yamlData

/-- The wrapping step of `dumpYAML` (lines 131-141): with `lineWidth > 0` the
text is split at newlines, every line longer than `lineWidth` is replaced by
its `wrapLine`, and the lines are joined again; otherwise the text is returned
as it is. -/
def wrapText (fuel : Nat) (yamlData : GoString) (indent lineWidth : Int) :
    Except Fault GoString :=
  if lineWidth > 0 then
    match mapExcept (fun line =>
        if (line.length : Int) > lineWidth then wrapLine fuel line lineWidth indent
        else Except.ok line) (stringsSplit yamlData [newline]) with
    | .error e => .error e
    | .ok lines => .ok (stringsJoin lines [newline])
  else .ok yamlData

/-- The function `dumpYAML`.  The encoder `yaml.Marshal` belongs to the
library `gopkg.in/yaml.v3` and is a parameter; it is called with the value
alone, so the encoder text cannot depend on `indent`. -/
def dumpYAML (marshal : Value → Except Fault GoString) (fuel : Nat) (data : Value)
    (indent : Int) (quotingStyle : GoString) (lineWidth : Int) : Except Fault GoString :=
  match marshal data with
  | .error e => .error e
  | .ok yamlData => wrapText fuel (quoteText yamlData quotingStyle) indent lineWidth

/-! ## Example inputs -/

/-- The entries of `exampleDoc`. -/
def exampleEntries : List (Key × Value) :=
  [(Key.ofString ['z'], .map [(Key.ofString ['y'], .scalar (.int 1)),
      (Key.ofString ['x'], .scalar (.int 2))]),
   (Key.ofString ['a'], .seq [.map [(Key.ofString ['d'], .null),
      (Key.ofString ['c'], .scalar (.str ['s']))], .scalar (.bool true)])]

/-- The document `{z: {y: 1, x: 2}, a: [{d: ~, c: s}, true]}`, its mappings
held as `map[interface{}]interface{}`. -/
def exampleDoc : Value := .map exampleEntries

/-- The document `{a: [{c: s, d: ~}, true], z: {x: 2, y: 1}}`: `exampleDoc`
with the keys of every mapping in byte-wise order. -/
def sortedDoc : Value :=
  .map [(Key.ofString ['a'], .seq [.map [(Key.ofString ['c'], .scalar (.str ['s'])),
      (Key.ofString ['d'], .null)], .scalar (.bool true)]),
    (Key.ofString ['z'], .map [(Key.ofString ['x'], .scalar (.int 2)),
      (Key.ofString ['y'], .scalar (.int 1))])]

/-- The document `{b: 1, a: 2}` as a `map[interface{}]interface{}`. -/
def twoKeyDoc : Value :=
  .map [(Key.ofString ['b'], .scalar (.int 1)), (Key.ofString ['a'], .scalar (.int 2))]

/-- The document `{b: 1, a: 2}` as the decoder hands it to `sortKeys`: a
`map[string]interface{}`. -/
def decodedTwoKeyDoc : Value :=
  .strMap [(['b'], .scalar (.int 1)), (['a'], .scalar (.int 2))]

/-- The document `{b: {true: x}, a: 1}` as the decoder hands it to `sortKeys`:
the outer mapping, with string keys, is a `map[string]interface{}`; the inner
one, with a boolean key, a `map[interface{}]interface{}`. -/
def decodedBoolKeyDoc : Value :=
  .strMap [(['b'], .map [(.scalar (.bool true), .scalar (.str ['x']))]),
    (['a'], .scalar (.int 1))]

/-- The document `{1: a}`, whose only key is an integer. -/
def intKeyDoc : Value := .map [(.scalar (.int 1), .scalar (.str ['a']))]

/-- The document `{z: {y: 1, x: 2}}` of the specification's scenario. -/
def nestedDoc : Value :=
  .map [(Key.ofString ['z'], .map [(Key.ofString ['y'], .scalar (.int 1)),
    (Key.ofString ['x'], .scalar (.int 2))])]

/-- A sample encoder: whatever the value, it returns the text that
`gopkg.in/yaml.v3` emits for the sorted `nestedDoc` (nesting indented by the
library's fixed four spaces). -/
def sampleMarshal : Value → Except Fault GoString :=
  fun _ => .ok "z:\n    x: 2\n    y: 1\n".toList

/-- The encoder text `'it''s'`: the single-quoted rendering of the string `it's`. -/
def quotedIts : GoString :=
  [singleQuote, 'i', 't', singleQuote, singleQuote, 's', singleQuote]

/-- A sample encoder returning the one line `'it''s'`. -/
def quotedMarshal : Value → Except Fault GoString :=
  fun _ => .ok (quotedIts ++ [newline])

/-- Specification of the quote substitution on one byte: a single quote
becomes a double quote, every other byte stays. -/
def quoteSubst (c : Char) : Char :=
  if c = singleQuote then doubleQuote else c

/-! ## `main` (src/yaml-sort.go 14-119) -/

/-- The values of the command-line flags after `flag.Parse()`. -/
structure Options where
  input : GoString
  output : GoString
  stdout : Bool
  check : Bool
  indent : Int
  quotingStyle : GoString
  lineWidth : Int

/-- The flag defaults declared in lines 16-22. -/
def defaultOptions : Options :=
  { input := "-".toList, output := [], stdout := false, check := false,
    indent := 2, quotingStyle := "single".toList, lineWidth := 1000 }

/-- What one iteration of the loop finds outside the program: whether standard
input is a terminal, the result of reading an input (`ioutil.ReadAll(os.Stdin)`
for `-`, `ioutil.ReadFile` otherwise) and whether `ioutil.WriteFile` to a
path succeeds. -/
structure Env where
  stdinIsTerminal : Bool
  read : GoString → Except Fault GoString
  writeOk : GoString → Bool

/-- The observable actions of `main`. -/
inductive Event where
  /-- the call `flag.Usage()` -/
  | usage
  /-- the line "Missing filename or input" on standard error -/
  | missingInput
  /-- the line `fmt.Println(err)` for a read, parse, encode or write error -/
  | errorLine
  /-- the line "... is not sorted and/or formatted" of check mode -/
  | notSorted (file : GoString)
  /-- the result printed by `fmt.Print(string(outContent))` -/
  | print (text : GoString)
  /-- the call `ioutil.WriteFile(outputFile, outContent, os.ModePerm)` -/
  | write (path content : GoString)
  deriving DecidableEq, Repr

/-- How the process ends: `os.Exit(code)` (or the return of `main`, code 0),
or a crash by a run-time panic or a loop that never ends. -/
inductive Exit where
  | code (n : Nat)
  | crash (f : Fault)
  deriving DecidableEq, Repr

/-- The outcome of one iteration of the loop over the files. -/
inductive FileResult where
  /-- the iteration ended (also by `continue`); `ok = false` sets `success = false` -/
  | done (events : List Event) (ok : Bool)
  /-- the iteration called `os.Exit(code)` -/
  | exit (code : Nat) (events : List Event)
  /-- `sortKeys` or `dumpYAML` panicked or did not end -/
  | crash (f : Fault)

/-- The list `files` of lines 45-48: the positional arguments `flag.Args()`,
followed by the value of `input` unless that value is `-`. -/
def inputFiles (positional : List GoString) (input : GoString) : List GoString :=
  if input ≠ "-".toList then positional ++ [input] else positional

/-- The body of the loop `for _, file := range files` (lines 51-113).  The
decoder `yaml.Unmarshal` and the encoder `yaml.Marshal` are parameters. -/
def processFile (env : Env) (parse : GoString → Except Fault Value)
    (marshal : Value → Except Fault GoString) (fuel : Nat) (opts : Options)
    (file : GoString) : FileResult :=
  let isStdin : Bool := decide (file = "-".toList)
  if isStdin && env.stdinIsTerminal then .exit 22 [.missingInput]
  else
    match env.read file with
    | .error _ => .done [.errorLine] false
    | .ok content =>
      match parse content with
      | .error _ => .done [.errorLine] false
      | .ok parsed =>
        match (if opts.check then .ok parsed else sortKeys parsed) with
        | .error f => .crash f
        | .ok data =>
          match dumpYAML marshal fuel data opts.indent opts.quotingStyle opts.lineWidth with
          | .error .encode => .done [.errorLine] false
          | .error f => .crash f
          | .ok outContent =>
            if opts.check then
              if outContent ≠ content then .done [.notSorted file] false
              else .done [] true
            else if opts.stdout || (isStdin && decide (opts.output = [])) then
              .done [.print outContent] true
            else
              let outputFile := if opts.output = [] then file else opts.output
              if env.writeOk outputFile then .done [.write outputFile outContent] true
              else .done [.write outputFile outContent, .errorLine] false

/-- The loop over the files and the end of `main` (lines 50-118): `k` counts
the iterations done, `env k` is what iteration `k` finds. -/
def mainLoop (env : Nat → Env) (parse : GoString → Except Fault Value)
    (marshal : Value → Except Fault GoString) (fuel : Nat) (opts : Options) :
    List GoString → Nat → List Event → Bool → List Event × Exit
  | [], _, events, success => (events, if success then .code 0 else .code 1)
  | file :: rest, k, events, success =>
    match processFile (env k) parse marshal fuel opts file with
    | .done evs ok =>
      mainLoop env parse marshal fuel opts rest (k + 1) (events ++ evs) (success && ok)
    | .exit code evs => (events ++ evs, .code code)
    | .crash f => (events, .crash f)

/-- The function `main` after `flag.Parse()`: `nargs` is `len(os.Args)`,
`positional` is `flag.Args()`.  The result is the list of actions and the way
the process ends. -/
def mainRun (env : Nat → Env) (parse : GoString → Except Fault Value)
    (marshal : Value → Except Fault GoString) (fuel : Nat) (nargs : Nat) (opts : Options)
    (positional : List GoString) : List Event × Exit :=
  if nargs = 1 then ([.usage], .code 0)
  else mainLoop env parse marshal fuel opts (inputFiles positional opts.input) 0 [] true

/-- The pipeline of one input outside check mode: decode, `sortKeys`, `dumpYAML`. -/
def canonicalize (parse : GoString → Except Fault Value)
    (marshal : Value → Except Fault GoString) (fuel : Nat) (opts : Options)
    (content : GoString) : Except Fault GoString :=
  match parse content with
  | .error e => .error e
  | .ok parsed =>
    match sortKeys parsed with
    | .error e => .error e
    | .ok data => dumpYAML marshal fuel data opts.indent opts.quotingStyle opts.lineWidth

/-! ## Specification vocabulary for the line wrapper -/

/-- The text with every space deleted. -/
def dropSpaces (s : GoString) : GoString := s.filter (fun c => decide (c ≠ ' '))

/-- The text with every space and every newline deleted. -/
def dropSpacesNewlines (s : GoString) : GoString :=
  s.filter (fun c => decide (c ≠ ' ') && decide (c ≠ newline))

/-- A sample environment: standard input is a pipe, every read returns the
text `z:` .. of `sampleMarshal`, every write succeeds. -/
def sampleEnv : Env :=
  { stdinIsTerminal := false,
    read := fun _ => .ok "z:\n    x: 2\n    y: 1\n".toList,
    writeOk := fun _ => true }

/-- A sample decoder: whatever the text, it returns `nestedDoc`. -/
def sampleParse : GoString → Except Fault Value := fun _ => .ok nestedDoc

/-- The document `{z: {x: 2, y: 1}}`: `nestedDoc` with its keys in order. -/
def sortedNestedDoc : Value :=
  .map [(Key.ofString ['z'], .map [(Key.ofString ['x'], .scalar (.int 2)),
    (Key.ofString ['y'], .scalar (.int 1))])]

/-! ## Lemmas: the helpers -/

theorem mapExcept_attach {α β : Type} (f : α → Except Fault β) (l : List α) :
    mapExcept (fun x => f x.1) l.attach = mapExcept f l := by
  have gen : ∀ (l2 : List α) (P : α → Prop) (l1 : List {x // P x}),
      l1.map Subtype.val = l2 → mapExcept (fun x => f x.1) l1 = mapExcept f l2 := by
    intro l2
    induction l2 with
    | nil =>
      intro P l1 h
      cases l1 with
      | nil => rfl
      | cons a as => simp at h
    | cons b bs ih =>
      intro P l1 h
      cases l1 with
      | nil => simp at h
      | cons a as =>
        simp only [List.map_cons, List.cons.injEq] at h
        simp only [mapExcept, h.1, ih P as h.2]
  exact gen l _ l.attach (by simp)

theorem mapExcept_ok {α β : Type} (f : α → Except Fault β) (g : α → β) (l : List α)
    (h : ∀ a ∈ l, f a = .ok (g a)) : mapExcept f l = .ok (l.map g) := by
  induction l with
  | nil => rfl
  | cons a as ih =>
    have h1 := h a (List.mem_cons_self _ _)
    have h2 := ih (fun b hb => h b (List.mem_cons_of_mem _ hb))
    simp only [mapExcept, h1, h2, List.map_cons]

theorem mapExcept_panic {α β : Type} (f : α → Except Fault β) (l : List α)
    (hall : ∀ a ∈ l, (∃ b, f a = .ok b) ∨ f a = .error .panic)
    (hex : ∃ a ∈ l, f a = .error .panic) : mapExcept f l = .error .panic := by
  induction l with
  | nil => simp at hex
  | cons a as ih =>
    rcases hall a (List.mem_cons_self _ _) with ⟨b, hb⟩ | hp
    · obtain ⟨c, hc, hcp⟩ := hex
      have hc2 : c ∈ as := by
        rcases List.mem_cons.1 hc with rfl | h
        · rw [hb] at hcp; cases hcp
        · exact h
      have := ih (fun x hx => hall x (List.mem_cons_of_mem _ hx)) ⟨c, hc2, hcp⟩
      simp only [mapExcept, hb, this]
    · simp only [mapExcept, hp]

theorem sortKeys_null : sortKeys .null = .ok .null := by
  rw [sortKeys] <;> intros <;> simp_all

theorem sortKeys_scalar (a : Scalar) : sortKeys (.scalar a) = .ok (.scalar a) := by
  rw [sortKeys] <;> intros <;> simp_all

theorem sortKeys_strMap (es : List (GoString × Value)) :
    sortKeys (.strMap es) = .ok (.strMap es) := by
  rw [sortKeys] <;> intros <;> simp_all

theorem sortKeys_seq (v : List Value) :
    sortKeys (.seq v) =
      match mapExcept sortKeys v with
      | .error e => .error e
      | .ok items => .ok (.seq items) := by
  rw [sortKeys, mapExcept_attach]

theorem sortKeys_map (v : List (Key × Value)) :
    sortKeys (.map v) =
      match mapExcept (fun e => assertString e.1) v with
      | .error e => .error e
      | .ok keys =>
        match foldExcept (fun sorted key =>
            match sortKeys (mapIndex v (Key.ofString key)) with
            | .error e => .error e
            | .ok r => .ok (mapAssign sorted (Key.ofString key) r)) [] (sortStrings keys) with
        | .error e => .error e
        | .ok sorted => .ok (.map sorted) := by
  rw [sortKeys]

/-! ## Lemmas: the order of `sort.Strings` -/

theorem strLe_total (a b : GoString) : strLe a b = true ∨ strLe b a = true := by
  induction a generalizing b with
  | nil => left; simp [strLe]
  | cons x xs ih =>
    cases b with
    | nil => right; simp [strLe]
    | cons y ys =>
      simp only [strLe, Bool.or_eq_true, Bool.and_eq_true, decide_eq_true_eq]
      rcases Nat.lt_trichotomy x.toNat y.toNat with h | h | h
      · left; left; exact h
      · rcases ih ys with h2 | h2
        · left; right; exact ⟨h, h2⟩
        · right; right; exact ⟨h.symm, h2⟩
      · right; left; exact h

theorem strLe_trans (a b c : GoString) (hab : strLe a b = true) (hbc : strLe b c = true) :
    strLe a c = true := by
  induction a generalizing b c with
  | nil => simp [strLe]
  | cons x xs ih =>
    cases b with
    | nil => simp [strLe] at hab
    | cons y ys =>
      cases c with
      | nil => simp [strLe] at hbc
      | cons z zs =>
        simp only [strLe, Bool.or_eq_true, Bool.and_eq_true, decide_eq_true_eq] at hab hbc ⊢
        rcases hab with h1 | ⟨h1, h1r⟩
        · rcases hbc with h2 | ⟨h2, _⟩
          · left; omega
          · left; omega
        · rcases hbc with h2 | ⟨h2, h2r⟩
          · left; omega
          · right; exact ⟨by omega, ih ys zs h1r h2r⟩

theorem strLe_antisymm (a b : GoString) (hab : strLe a b = true) (hba : strLe b a = true) :
    a = b := by
  induction a generalizing b with
  | nil =>
    cases b with
    | nil => rfl
    | cons y ys => simp [strLe] at hba
  | cons x xs ih =>
    cases b with
    | nil => simp [strLe] at hab
    | cons y ys =>
      simp only [strLe, Bool.or_eq_true, Bool.and_eq_true, decide_eq_true_eq] at hab hba
      rcases hab with h1 | ⟨h1, h1r⟩
      · rcases hba with h2 | ⟨h2, _⟩ <;> omega
      · rcases hba with h2 | ⟨_, h2r⟩
        · omega
        · have hx : x = y := by
            rw [← Char.ofNat_toNat x, ← Char.ofNat_toNat y, h1]
          rw [hx, ih ys h1r h2r]

theorem sortStrings_perm (ks : List GoString) : (sortStrings ks).Perm ks :=
  List.perm_insertionSort _ ks

theorem sortStrings_sorted (ks : List GoString) :
    (sortStrings ks).Pairwise (fun a b => strLe a b = true) := by
  haveI : IsTotal GoString (fun a b => strLe a b = true) := ⟨strLe_total⟩
  haveI : IsTrans GoString (fun a b => strLe a b = true) := ⟨strLe_trans⟩
  exact List.sorted_insertionSort _ ks

theorem sortStrings_of_sorted (ks : List GoString)
    (h : ks.Pairwise (fun a b => strLe a b = true)) : sortStrings ks = ks :=
  List.Sorted.insertionSort_eq h

/-- The sorted list is determined by the keys alone: every sorted permutation
of the keys is the list returned by `sortStrings`. -/
theorem sortStrings_unique (ks l : List GoString) (hp : l.Perm ks)
    (hs : l.Pairwise (fun a b => strLe a b = true)) : l = sortStrings ks := by
  haveI : IsAntisymm GoString (fun a b => strLe a b = true) := ⟨strLe_antisymm⟩
  exact List.eq_of_perm_of_sorted (hp.trans (sortStrings_perm ks).symm) hs
    (sortStrings_sorted ks)

/-! ## Lemmas: predicates on trees -/

theorem allMapsItems_iff (p : List (Key × Value) → Bool) (xs : List Value) :
    allMapsItems p xs = true ↔ ∀ x ∈ xs, x.allMaps p = true := by
  induction xs with
  | nil => simp [allMapsItems]
  | cons x xs ih => simp [allMapsItems, ih]

theorem allMapsEntries_iff (p : List (Key × Value) → Bool) (es : List (Key × Value)) :
    allMapsEntries p es = true ↔ ∀ e ∈ es, e.2.allMaps p = true := by
  induction es with
  | nil => simp [allMapsEntries]
  | cons e es ih =>
    obtain ⟨k, x⟩ := e
    simp [allMapsEntries, ih]

theorem allMaps_seq (p : List (Key × Value) → Bool) (xs : List Value) :
    (Value.seq xs).allMaps p = true ↔ ∀ x ∈ xs, x.allMaps p = true := by
  rw [Value.allMaps, allMapsItems_iff]

theorem allMaps_map (p : List (Key × Value) → Bool) (es : List (Key × Value)) :
    (Value.map es).allMaps p = true ↔ p es = true ∧ ∀ e ∈ es, e.2.allMaps p = true := by
  rw [Value.allMaps, Bool.and_eq_true, allMapsEntries_iff]

theorem keysAgreeItems_iff (xs ys : List Value) :
    keysAgreeItems xs ys = true ↔ List.Forall₂ (fun x y => keysAgree x y = true) xs ys := by
  induction xs generalizing ys with
  | nil => cases ys <;> simp [keysAgreeItems]
  | cons x xs ih => cases ys <;> simp [keysAgreeItems, ih]

theorem keysAgreeEntries_iff (es fs : List (Key × Value)) :
    keysAgreeEntries es fs = true ↔ ∀ e ∈ es, keysAgree e.2 (mapIndex fs e.1) = true := by
  induction es with
  | nil => simp [keysAgreeEntries]
  | cons e es ih =>
    obtain ⟨k, x⟩ := e
    simp [keysAgreeEntries, ih]

theorem sameKeySet_iff (ks1 ks2 : List Key) :
    sameKeySet ks1 ks2 = true ↔ ∀ k, k ∈ ks1 ↔ k ∈ ks2 := by
  simp only [sameKeySet, Bool.and_eq_true, List.all_eq_true, decide_eq_true_eq]
  constructor
  · rintro ⟨h1, h2⟩ k
    exact ⟨h1 k, h2 k⟩
  · intro h
    exact ⟨fun k hk => (h k).1 hk, fun k hk => (h k).2 hk⟩

theorem Key.ofString_toStr (k : Key) (h : k.isString = true) : Key.ofString k.toStr = k := by
  cases k with
  | null => simp [Key.isString] at h
  | scalar a => cases a <;> first | rfl | simp [Key.isString] at h

theorem Key.ofString_injective : Function.Injective Key.ofString := by
  intro a b h
  simpa [Key.ofString] using h

theorem sizeOf_entry_lt (es : List (Key × Value)) (e : Key × Value) (h : e ∈ es) :
    sizeOf e.2 < sizeOf (Value.map es) := by
  have h1 := List.sizeOf_lt_of_mem h
  obtain ⟨k, x⟩ := e
  simp only [Value.map.sizeOf_spec, Prod.mk.sizeOf_spec] at h1 ⊢
  omega

theorem sizeOf_item_lt (xs : List Value) (x : Value) (h : x ∈ xs) :
    sizeOf x < sizeOf (Value.seq xs) := by
  have h1 := List.sizeOf_lt_of_mem h
  simp only [Value.seq.sizeOf_spec]
  omega

/-! ## Lemmas: Go map operations -/

theorem mapIndex_mem (es : List (Key × Value)) (k : Key) (h : k ∈ keysOf es) :
    ∃ e ∈ es, e.1 = k ∧ mapIndex es k = e.2 := by
  induction es with
  | nil => simp [keysOf] at h
  | cons e es ih =>
    obtain ⟨k2, x⟩ := e
    by_cases hk : k2 = k
    · exact ⟨(k2, x), List.mem_cons_self _ _, hk, by simp [mapIndex, hk]⟩
    · have h2 : k ∈ keysOf es := by
        simp only [keysOf, List.map_cons, List.mem_cons] at h
        rcases h with h | h
        · exact absurd h.symm hk
        · exact h
      obtain ⟨e, he, hek, hidx⟩ := ih h2
      exact ⟨e, List.mem_cons_of_mem _ he, hek, by simp [mapIndex, hk, hidx]⟩

theorem mapIndex_of_nodup (es : List (Key × Value)) (hnd : (keysOf es).Nodup)
    (e : Key × Value) (he : e ∈ es) : mapIndex es e.1 = e.2 := by
  induction es with
  | nil => simp at he
  | cons e2 es ih =>
    obtain ⟨k2, x2⟩ := e2
    simp only [keysOf, List.map_cons, List.nodup_cons] at hnd
    rcases List.mem_cons.1 he with rfl | h
    · simp [mapIndex]
    · have hne : k2 ≠ e.1 := by
        intro heq
        exact hnd.1 (heq ▸ List.mem_map_of_mem Prod.fst h)
      simp only [mapIndex, hne, if_false]
      exact ih hnd.2 h

theorem mapIndex_map_ofString (g : GoString → Value) (l : List GoString) (k : GoString)
    (h : k ∈ l) : mapIndex (l.map (fun a => (Key.ofString a, g a))) (Key.ofString k) = g k := by
  induction l with
  | nil => simp at h
  | cons a as ih =>
    by_cases hk : a = k
    · simp [mapIndex, hk]
    · have hk2 : Key.ofString a ≠ Key.ofString k := fun hh => hk (Key.ofString_injective hh)
      rcases List.mem_cons.1 h with h | h
      · exact absurd h.symm hk
      · simp only [List.map_cons, mapIndex, hk2, if_false]
        exact ih h

theorem mapAssign_of_not_mem (es : List (Key × Value)) (k : Key) (x : Value)
    (h : k ∉ keysOf es) : mapAssign es k x = es ++ [(k, x)] := by
  induction es with
  | nil => rfl
  | cons e es ih =>
    obtain ⟨k2, y⟩ := e
    simp only [keysOf, List.map_cons, List.mem_cons, not_or] at h
    have hne : k2 ≠ k := fun hh => h.1 hh.symm
    simp only [mapAssign, hne, if_false, List.cons_append]
    rw [ih h.2]

theorem foldl_mapAssign (g : GoString → Value) (ks : List GoString) (acc : List (Key × Value))
    (hnd : ks.Nodup) (hacc : ∀ k ∈ ks, Key.ofString k ∉ keysOf acc) :
    ks.foldl (fun m k => mapAssign m (Key.ofString k) (g k)) acc
      = acc ++ ks.map (fun k => (Key.ofString k, g k)) := by
  induction ks generalizing acc with
  | nil => simp
  | cons k ks ih =>
    simp only [List.nodup_cons] at hnd
    simp only [List.foldl_cons, List.map_cons]
    rw [mapAssign_of_not_mem acc _ _ (hacc k (List.mem_cons_self _ _))]
    rw [ih _ hnd.2]
    · simp
    · intro k2 hk2
      simp only [keysOf, List.map_append, List.map_cons, List.map_nil, List.mem_append,
        List.mem_singleton, not_or]
      refine ⟨hacc k2 (List.mem_cons_of_mem _ hk2), ?_⟩
      intro heq
      have := Key.ofString_injective heq
      exact hnd.1 (this ▸ hk2)

theorem foldExcept_assign (es : List (Key × Value)) (g : GoString → Value)
    (ks : List GoString) (acc : List (Key × Value))
    (h : ∀ k ∈ ks, sortKeys (mapIndex es (Key.ofString k)) = .ok (g k)) :
    foldExcept (fun sorted key =>
        match sortKeys (mapIndex es (Key.ofString key)) with
        | .error e => .error e
        | .ok r => .ok (mapAssign sorted (Key.ofString key) r)) acc ks
      = .ok (ks.foldl (fun m k => mapAssign m (Key.ofString k) (g k)) acc) := by
  induction ks generalizing acc with
  | nil => rfl
  | cons k ks ih =>
    have h1 := h k (List.mem_cons_self _ _)
    simp only [foldExcept, h1, List.foldl_cons]
    exact ih _ (fun k2 hk2 => h k2 (List.mem_cons_of_mem _ hk2))

/-! ## Lemmas: one level of `sortKeys` -/

theorem sortKeysD_eq (v r : Value) (h : sortKeys v = .ok r) : sortKeysD v = r := by
  simp [sortKeysD, h]

theorem stringKeys_toStr_nodup (es : List (Key × Value))
    (hs : ∀ e ∈ es, e.1.isString = true) (hnd : (keysOf es).Nodup) :
    (es.map (fun e => e.1.toStr)).Nodup := by
  have h : keysOf es = (es.map (fun e => e.1.toStr)).map Key.ofString := by
    simp only [keysOf, List.map_map]
    apply List.map_congr_left
    intro e he
    exact (Key.ofString_toStr e.1 (hs e he)).symm
  rw [h] at hnd
  exact List.Nodup.of_map _ hnd

/-- The entries of the mapping returned by `sortKeys` for a mapping `es` whose
keys are distinct strings. -/
theorem sortKeys_map_ok (es : List (Key × Value))
    (hs : ∀ e ∈ es, e.1.isString = true) (hnd : (keysOf es).Nodup)
    (hrec : ∀ e ∈ es, ∃ r, sortKeys e.2 = .ok r) :
    sortKeys (.map es) = .ok (.map ((sortStrings (es.map (fun e => e.1.toStr))).map
      (fun k => (Key.ofString k, sortKeysD (mapIndex es (Key.ofString k)))))) := by
  have hkeys : mapExcept (fun e => assertString e.1) es
      = .ok (es.map (fun e => e.1.toStr)) := by
    apply mapExcept_ok
    intro e he
    have := hs e he
    obtain ⟨k, x⟩ := e
    cases k with
    | null => simp [Key.isString] at this
    | scalar a => cases a <;> first | rfl | simp [Key.isString] at this
  have hcall : ∀ k ∈ sortStrings (es.map (fun e => e.1.toStr)),
      sortKeys (mapIndex es (Key.ofString k))
        = .ok (sortKeysD (mapIndex es (Key.ofString k))) := by
    intro k hk
    have hk2 : k ∈ es.map (fun e => e.1.toStr) := (sortStrings_perm _).mem_iff.1 hk
    obtain ⟨e, he, hek⟩ := List.mem_map.1 hk2
    have hkey : Key.ofString k = e.1 := by
      rw [← hek]; exact Key.ofString_toStr e.1 (hs e he)
    have hmem : Key.ofString k ∈ keysOf es := by
      rw [hkey]; exact List.mem_map_of_mem Prod.fst he
    obtain ⟨e2, he2, _, hidx⟩ := mapIndex_mem es _ hmem
    obtain ⟨r, hr⟩ := hrec e2 he2
    rw [hidx, hr, sortKeysD_eq _ _ hr]
  have hnd2 : (sortStrings (es.map (fun e => e.1.toStr))).Nodup :=
    (sortStrings_perm _).nodup_iff.2 (stringKeys_toStr_nodup es hs hnd)
  rw [sortKeys_map, hkeys]
  simp only
  rw [foldExcept_assign es (fun k => sortKeysD (mapIndex es (Key.ofString k))) _ [] hcall]
  simp only
  rw [foldl_mapAssign _ _ [] hnd2 (by intro k _; simp [keysOf])]
  simp

/-- The sequence returned by `sortKeys` for a sequence all of whose elements
are sorted without fault. -/
theorem sortKeys_seq_ok (xs : List Value) (hrec : ∀ x ∈ xs, ∃ r, sortKeys x = .ok r) :
    sortKeys (.seq xs) = .ok (.seq (xs.map sortKeysD)) := by
  have h : mapExcept sortKeys xs = .ok (xs.map sortKeysD) := by
    apply mapExcept_ok
    intro x hx
    obtain ⟨r, hr⟩ := hrec x hx
    rw [hr, sortKeysD_eq _ _ hr]
  rw [sortKeys_seq, h]

/-! ## Lemmas: the result of `sortKeys` on a whole tree -/

theorem sortedEntries_value (es : List (Key × Value)) (hs : ∀ e ∈ es, e.1.isString = true)
    (e2 : Key × Value)
    (h : e2 ∈ (sortStrings (es.map (fun e => e.1.toStr))).map
      (fun k => (Key.ofString k, sortKeysD (mapIndex es (Key.ofString k))))) :
    ∃ e ∈ es, e2.1 = e.1 ∧ e2.2 = sortKeysD e.2 := by
  obtain ⟨k, hk, rfl⟩ := List.mem_map.1 h
  have hk2 : k ∈ es.map (fun e => e.1.toStr) := (sortStrings_perm _).mem_iff.1 hk
  obtain ⟨e, he, hek⟩ := List.mem_map.1 hk2
  have hkey : Key.ofString k = e.1 := by
    rw [← hek]; exact Key.ofString_toStr e.1 (hs e he)
  have hmem : Key.ofString k ∈ keysOf es := by
    rw [hkey]; exact List.mem_map_of_mem Prod.fst he
  obtain ⟨e3, he3, hk3, hidx⟩ := mapIndex_mem es _ hmem
  exact ⟨e3, he3, hk3.symm, by simp only [hidx]⟩

theorem sortedEntries_keys (es : List (Key × Value)) :
    keysOf ((sortStrings (es.map (fun e => e.1.toStr))).map
      (fun k => (Key.ofString k, sortKeysD (mapIndex es (Key.ofString k)))))
      = (sortStrings (es.map (fun e => e.1.toStr))).map Key.ofString := by
  simp [keysOf, List.map_map, Function.comp_def]

theorem sortedEntries_mem_keys (es : List (Key × Value)) (hs : ∀ e ∈ es, e.1.isString = true)
    (k : Key) :
    k ∈ (sortStrings (es.map (fun e => e.1.toStr))).map Key.ofString ↔ k ∈ keysOf es := by
  constructor
  · intro h
    obtain ⟨a, ha, rfl⟩ := List.mem_map.1 h
    have ha2 := (sortStrings_perm _).mem_iff.1 ha
    obtain ⟨e, he, rfl⟩ := List.mem_map.1 ha2
    rw [Key.ofString_toStr e.1 (hs e he)]
    exact List.mem_map_of_mem Prod.fst he
  · intro h
    obtain ⟨e, he, rfl⟩ := List.mem_map.1 h
    refine List.mem_map.2 ⟨e.1.toStr, ?_, Key.ofString_toStr e.1 (hs e he)⟩
    exact (sortStrings_perm _).mem_iff.2 (List.mem_map_of_mem (fun e => e.1.toStr) he)

theorem keysSorted_sortedKeys (ks : List GoString) :
    keysSorted ((sortStrings ks).map Key.ofString) = true := by
  simp only [keysSorted, decide_eq_true_eq, List.pairwise_map]
  exact sortStrings_sorted ks

/-- On a tree with distinct string keys `sortKeys` returns a tree with distinct
string keys and the key sets of the input, whose entry lists (the sequence of
insertions) are in byte-wise key order. -/
theorem sortKeys_spec (v : Value) (hs : v.stringKeys = true) (hu : v.uniqueKeys = true) :
    ∃ r, sortKeys v = .ok r ∧ r.stringKeys = true ∧ r.uniqueKeys = true
      ∧ r.mapsSorted = true ∧ keysAgree v r = true := by
  revert hs hu
  generalize hn : sizeOf v = n
  induction n using Nat.strong_induction_on generalizing v with
  | _ n ih =>
    intro hs hu
    subst hn
    cases v with
    | null => exact ⟨.null, sortKeys_null, by decide, by decide, by decide, by decide⟩
    | scalar a =>
      exact ⟨.scalar a, sortKeys_scalar a, by simp [Value.stringKeys, Value.allMaps],
        by simp [Value.uniqueKeys, Value.allMaps], by simp [Value.mapsSorted, Value.allMaps],
        by simp [keysAgree]⟩
    | strMap es =>
      exact ⟨.strMap es, sortKeys_strMap es, by simp [Value.stringKeys, Value.allMaps],
        by simp [Value.uniqueKeys, Value.allMaps], by simp [Value.mapsSorted, Value.allMaps],
        by simp [keysAgree]⟩
    | seq xs =>
      have hs2 := (allMaps_seq _ xs).1 hs
      have hu2 := (allMaps_seq _ xs).1 hu
      have hx : ∀ x ∈ xs, sortKeys x = .ok (sortKeysD x) ∧ (sortKeysD x).stringKeys = true
          ∧ (sortKeysD x).uniqueKeys = true ∧ (sortKeysD x).mapsSorted = true
          ∧ keysAgree x (sortKeysD x) = true := by
        intro x hx
        obtain ⟨r, hr, h1, h2, h3, h4⟩ :=
          ih _ (sizeOf_item_lt xs x hx) x rfl (hs2 x hx) (hu2 x hx)
        rw [sortKeysD_eq _ _ hr]
        exact ⟨hr, h1, h2, h3, h4⟩
      refine ⟨.seq (xs.map sortKeysD), sortKeys_seq_ok xs (fun x h => ⟨_, (hx x h).1⟩),
        ?_, ?_, ?_, ?_⟩
      · refine (allMaps_seq _ _).2 ?_
        intro y hy
        obtain ⟨x, hxm, rfl⟩ := List.mem_map.1 hy
        exact (hx x hxm).2.1
      · refine (allMaps_seq _ _).2 ?_
        intro y hy
        obtain ⟨x, hxm, rfl⟩ := List.mem_map.1 hy
        exact (hx x hxm).2.2.1
      · refine (allMaps_seq _ _).2 ?_
        intro y hy
        obtain ⟨x, hxm, rfl⟩ := List.mem_map.1 hy
        exact (hx x hxm).2.2.2.1
      · rw [keysAgree, keysAgreeItems_iff, List.forall₂_map_right_iff, List.forall₂_same]
        intro x hxm
        exact (hx x hxm).2.2.2.2
    | map es =>
      obtain ⟨hs1, hs2⟩ := (allMaps_map _ es).1 hs
      obtain ⟨hu1, hu2⟩ := (allMaps_map _ es).1 hu
      have hstr : ∀ e ∈ es, e.1.isString = true := by
        intro e he
        exact List.all_eq_true.1 hs1 e.1 (List.mem_map_of_mem Prod.fst he)
      have hnd : (keysOf es).Nodup := of_decide_eq_true hu1
      have hx : ∀ e ∈ es, sortKeys e.2 = .ok (sortKeysD e.2) ∧ (sortKeysD e.2).stringKeys = true
          ∧ (sortKeysD e.2).uniqueKeys = true ∧ (sortKeysD e.2).mapsSorted = true
          ∧ keysAgree e.2 (sortKeysD e.2) = true := by
        intro e he
        obtain ⟨r, hr, h1, h2, h3, h4⟩ :=
          ih _ (sizeOf_entry_lt es e he) e.2 rfl (hs2 e he) (hu2 e he)
        rw [sortKeysD_eq _ _ hr]
        exact ⟨hr, h1, h2, h3, h4⟩
      refine ⟨_, sortKeys_map_ok es hstr hnd (fun e h => ⟨_, (hx e h).1⟩), ?_, ?_, ?_, ?_⟩
      · refine (allMaps_map _ _).2 ⟨?_, ?_⟩
        · rw [sortedEntries_keys, List.all_eq_true]
          intro k hk
          obtain ⟨a, _, rfl⟩ := List.mem_map.1 hk
          rfl
        · intro e2 he2
          obtain ⟨e, he, _, hv⟩ := sortedEntries_value es hstr e2 he2
          rw [hv]; exact (hx e he).2.1
      · refine (allMaps_map _ _).2 ⟨?_, ?_⟩
        · rw [sortedEntries_keys]
          refine decide_eq_true ?_
          exact List.Nodup.map Key.ofString_injective
            ((sortStrings_perm _).nodup_iff.2 (stringKeys_toStr_nodup es hstr hnd))
        · intro e2 he2
          obtain ⟨e, he, _, hv⟩ := sortedEntries_value es hstr e2 he2
          rw [hv]; exact (hx e he).2.2.1
      · refine (allMaps_map _ _).2 ⟨?_, ?_⟩
        · rw [sortedEntries_keys]
          exact keysSorted_sortedKeys _
        · intro e2 he2
          obtain ⟨e, he, _, hv⟩ := sortedEntries_value es hstr e2 he2
          rw [hv]; exact (hx e he).2.2.2.1
      · rw [keysAgree, Bool.and_eq_true, sameKeySet_iff, keysAgreeEntries_iff,
          sortedEntries_keys]
        refine ⟨fun k => (sortedEntries_mem_keys es hstr k).symm, ?_⟩
        intro e he
        have hmem : e.1.toStr ∈ sortStrings (es.map (fun e => e.1.toStr)) :=
          (sortStrings_perm _).mem_iff.2 (List.mem_map_of_mem (fun e => e.1.toStr) he)
        have hkey := Key.ofString_toStr e.1 (hstr e he)
        have hidx := mapIndex_map_ofString
          (fun k => sortKeysD (mapIndex es (Key.ofString k))) _ _ hmem
        rw [hkey] at hidx
        rw [hidx]
        simp only [hkey, mapIndex_of_nodup es hnd e he]
        exact (hx e he).2.2.2.2

theorem keysOf_eq_map_toStr (es : List (Key × Value)) (hs : ∀ e ∈ es, e.1.isString = true) :
    keysOf es = (es.map (fun e => e.1.toStr)).map Key.ofString := by
  simp only [keysOf, List.map_map]
  apply List.map_congr_left
  intro e he
  exact (Key.ofString_toStr e.1 (hs e he)).symm

/-- A tree with distinct string keys whose mappings are all sorted is returned
unchanged by `sortKeys`. -/
theorem sortKeys_fixed (v : Value) (hs : v.stringKeys = true) (hu : v.uniqueKeys = true)
    (hm : v.mapsSorted = true) : sortKeys v = .ok v := by
  revert hs hu hm
  generalize hn : sizeOf v = n
  induction n using Nat.strong_induction_on generalizing v with
  | _ n ih =>
    intro hs hu hm
    subst hn
    cases v with
    | null => exact sortKeys_null
    | scalar a => exact sortKeys_scalar a
    | strMap es => exact sortKeys_strMap es
    | seq xs =>
      have hs2 := (allMaps_seq _ xs).1 hs
      have hu2 := (allMaps_seq _ xs).1 hu
      have hm2 := (allMaps_seq _ xs).1 hm
      have hx : ∀ x ∈ xs, sortKeys x = .ok x := fun x hx =>
        ih _ (sizeOf_item_lt xs x hx) x rfl (hs2 x hx) (hu2 x hx) (hm2 x hx)
      rw [sortKeys_seq_ok xs (fun x h => ⟨x, hx x h⟩)]
      have : xs.map sortKeysD = xs := by
        conv => rhs; rw [← List.map_id xs]
        apply List.map_congr_left
        intro x h
        exact sortKeysD_eq _ _ (hx x h)
      rw [this]
    | map es =>
      obtain ⟨hs1, hs2⟩ := (allMaps_map _ es).1 hs
      obtain ⟨hu1, hu2⟩ := (allMaps_map _ es).1 hu
      obtain ⟨hm1, hm2⟩ := (allMaps_map _ es).1 hm
      have hstr : ∀ e ∈ es, e.1.isString = true := by
        intro e he
        exact List.all_eq_true.1 hs1 e.1 (List.mem_map_of_mem Prod.fst he)
      have hnd : (keysOf es).Nodup := of_decide_eq_true hu1
      have hx : ∀ e ∈ es, sortKeys e.2 = .ok e.2 := fun e he =>
        ih _ (sizeOf_entry_lt es e he) e.2 rfl (hs2 e he) (hu2 e he) (hm2 e he)
      have hsorted : (es.map (fun e => e.1.toStr)).Pairwise (fun a b => strLe a b = true) := by
        have h1 : (keysOf es).Pairwise (fun a b => keyLe a b = true) := of_decide_eq_true hm1
        rw [keysOf_eq_map_toStr es hstr, List.pairwise_map] at h1
        exact h1
      rw [sortKeys_map_ok es hstr hnd (fun e h => ⟨e.2, hx e h⟩), sortStrings_of_sorted _ hsorted,
        List.map_map]
      have : es.map ((fun k => (Key.ofString k, sortKeysD (mapIndex es (Key.ofString k))))
          ∘ (fun e => e.1.toStr)) = es := by
        conv => rhs; rw [← List.map_id es]
        apply List.map_congr_left
        intro e he
        simp only [Function.comp_apply, Key.ofString_toStr e.1 (hstr e he),
          mapIndex_of_nodup es hnd e he, sortKeysD_eq _ _ (hx e he), id]
      rw [this]

/-- On a tree in which every key of every visited mapping is a string,
`sortKeys` returns a value. -/
theorem sortKeys_returns (v : Value) (hs : v.stringKeys = true) :
    ∃ r, sortKeys v = .ok r := by
  revert hs
  generalize hn : sizeOf v = n
  induction n using Nat.strong_induction_on generalizing v with
  | _ n ih =>
    intro hs
    subst hn
    cases v with
    | null => exact ⟨_, sortKeys_null⟩
    | scalar a => exact ⟨_, sortKeys_scalar a⟩
    | strMap es => exact ⟨_, sortKeys_strMap es⟩
    | seq xs =>
      have hs2 := (allMaps_seq _ xs).1 hs
      exact ⟨_, sortKeys_seq_ok xs
        (fun x hx => ih _ (sizeOf_item_lt xs x hx) x rfl (hs2 x hx))⟩
    | map es =>
      obtain ⟨hs1, hs2⟩ := (allMaps_map _ es).1 hs
      have hstr : ∀ e ∈ es, e.1.isString = true := by
        intro e he
        exact List.all_eq_true.1 hs1 e.1 (List.mem_map_of_mem Prod.fst he)
      have hkeys : mapExcept (fun e => assertString e.1) es
          = .ok (es.map (fun e => e.1.toStr)) := by
        apply mapExcept_ok
        intro e he
        have := hstr e he
        obtain ⟨k, x⟩ := e
        cases k with
        | null => simp [Key.isString] at this
        | scalar a => cases a <;> first | rfl | simp [Key.isString] at this
      have hcall : ∀ k ∈ sortStrings (es.map (fun e => e.1.toStr)),
          sortKeys (mapIndex es (Key.ofString k))
            = .ok (sortKeysD (mapIndex es (Key.ofString k))) := by
        intro k hk
        have hk2 : k ∈ es.map (fun e => e.1.toStr) := (sortStrings_perm _).mem_iff.1 hk
        obtain ⟨e, he, hek⟩ := List.mem_map.1 hk2
        have hkey : Key.ofString k = e.1 := by
          rw [← hek]; exact Key.ofString_toStr e.1 (hstr e he)
        have hmem : Key.ofString k ∈ keysOf es := by
          rw [hkey]; exact List.mem_map_of_mem Prod.fst he
        obtain ⟨e2, he2, _, hidx⟩ := mapIndex_mem es _ hmem
        obtain ⟨r, hr⟩ := ih _ (sizeOf_entry_lt es e2 he2) e2.2 rfl (hs2 e2 he2)
        rw [hidx, hr, sortKeysD_eq _ _ hr]
      rw [sortKeys_map, hkeys]
      simp only
      rw [foldExcept_assign es (fun k => sortKeysD (mapIndex es (Key.ofString k))) _ [] hcall]
      exact ⟨_, rfl⟩

/-! ## Lemmas: when `sortKeys` panics -/

theorem foldExcept_panic (es : List (Key × Value)) (ks : List GoString)
    (acc : List (Key × Value))
    (hall : ∀ k ∈ ks, (∃ r, sortKeys (mapIndex es (Key.ofString k)) = .ok r)
      ∨ sortKeys (mapIndex es (Key.ofString k)) = .error .panic)
    (hex : ∃ k ∈ ks, sortKeys (mapIndex es (Key.ofString k)) = .error .panic) :
    foldExcept (fun sorted key =>
        match sortKeys (mapIndex es (Key.ofString key)) with
        | .error e => .error e
        | .ok r => .ok (mapAssign sorted (Key.ofString key) r)) acc ks
      = .error .panic := by
  induction ks generalizing acc with
  | nil => simp at hex
  | cons k ks ih =>
    rcases hall k (List.mem_cons_self _ _) with ⟨r, hr⟩ | hp
    · obtain ⟨c, hc, hcp⟩ := hex
      have hc2 : c ∈ ks := by
        rcases List.mem_cons.1 hc with rfl | h
        · rw [hr] at hcp; cases hcp
        · exact h
      simp only [foldExcept, hr]
      exact ih _ (fun x hx => hall x (List.mem_cons_of_mem _ hx)) ⟨c, hc2, hcp⟩
    · simp only [foldExcept, hp]

theorem assertString_cases (k : Key) :
    (∃ s, assertString k = .ok s) ∨ assertString k = .error .panic := by
  cases k with
  | null => right; rfl
  | scalar a => cases a <;> first | (left; exact ⟨_, rfl⟩) | (right; rfl)

theorem assertString_panic (k : Key) (h : k.isString = false) :
    assertString k = .error .panic := by
  cases k with
  | null => rfl
  | scalar a => cases a <;> first | rfl | simp [Key.isString] at h

/-- On a tree of Go maps (distinct keys) in which some mapping that `sortKeys`
visits has a non-string key, `sortKeys` panics. -/
theorem sortKeys_panic (v : Value) (hu : v.uniqueKeys = true) (hs : v.stringKeys = false) :
    sortKeys v = .error .panic := by
  revert hs hu
  generalize hn : sizeOf v = n
  induction n using Nat.strong_induction_on generalizing v with
  | _ n ih =>
    intro hu hs
    subst hn
    have total : ∀ w : Value, sizeOf w < sizeOf v → w.uniqueKeys = true →
        (∃ r, sortKeys w = .ok r) ∨ sortKeys w = .error .panic := by
      intro w hw hwu
      cases hws : w.stringKeys with
      | true =>
        obtain ⟨r, hr, _⟩ := sortKeys_spec w hws hwu
        exact Or.inl ⟨r, hr⟩
      | false => exact Or.inr (ih _ hw w rfl hwu hws)
    cases v with
    | null => simp [Value.stringKeys, Value.allMaps] at hs
    | scalar a => simp [Value.stringKeys, Value.allMaps] at hs
    | strMap es => simp [Value.stringKeys, Value.allMaps] at hs
    | seq xs =>
      have hu2 := (allMaps_seq _ xs).1 hu
      have hs2 : ∃ x ∈ xs, x.stringKeys = false := by
        by_contra hcon
        have : ∀ x ∈ xs, x.stringKeys = true := by
          intro x hx
          cases hxs : x.stringKeys with
          | true => rfl
          | false => exact absurd ⟨x, hx, hxs⟩ hcon
        rw [show (Value.seq xs).stringKeys = true from (allMaps_seq _ xs).2 this] at hs
        cases hs
      obtain ⟨x, hx, hxs⟩ := hs2
      have h : mapExcept sortKeys xs = .error .panic := by
        apply mapExcept_panic
        · intro a ha
          exact total a (sizeOf_item_lt xs a ha) (hu2 a ha)
        · exact ⟨x, hx, ih _ (sizeOf_item_lt xs x hx) x rfl (hu2 x hx) hxs⟩
      rw [sortKeys_seq, h]
    | map es =>
      obtain ⟨hu1, hu2⟩ := (allMaps_map _ es).1 hu
      have hnd : (keysOf es).Nodup := of_decide_eq_true hu1
      by_cases hstr : ∀ e ∈ es, e.1.isString = true
      · have hkeys : mapExcept (fun e => assertString e.1) es
            = .ok (es.map (fun e => e.1.toStr)) := by
          apply mapExcept_ok
          intro e he
          have := hstr e he
          obtain ⟨k, x⟩ := e
          cases k with
          | null => simp [Key.isString] at this
          | scalar a => cases a <;> first | rfl | simp [Key.isString] at this
        have hs2 : ∃ e ∈ es, e.2.stringKeys = false := by
          by_contra hcon
          have h2 : ∀ e ∈ es, e.2.stringKeys = true := by
            intro e he
            cases hes : e.2.stringKeys with
            | true => rfl
            | false => exact absurd ⟨e, he, hes⟩ hcon
          have h1 : (keysOf es).all Key.isString = true := by
            rw [List.all_eq_true]
            intro k hk
            obtain ⟨e, he, rfl⟩ := List.mem_map.1 hk
            exact hstr e he
          rw [show (Value.map es).stringKeys = true from (allMaps_map _ es).2 ⟨h1, h2⟩] at hs
          cases hs
        obtain ⟨e, he, hes⟩ := hs2
        have hidx : ∀ e2 ∈ es, mapIndex es (Key.ofString e2.1.toStr) = e2.2 := by
          intro e2 he2
          rw [Key.ofString_toStr e2.1 (hstr e2 he2)]
          exact mapIndex_of_nodup es hnd e2 he2
        have hfold := foldExcept_panic es (sortStrings (es.map (fun e => e.1.toStr))) []
          (by
            intro k hk
            have hk2 := (sortStrings_perm _).mem_iff.1 hk
            obtain ⟨e2, he2, rfl⟩ := List.mem_map.1 hk2
            rw [hidx e2 he2]
            exact total e2.2 (sizeOf_entry_lt es e2 he2) (hu2 e2 he2))
          ⟨e.1.toStr,
            (sortStrings_perm _).mem_iff.2 (List.mem_map_of_mem (fun e => e.1.toStr) he),
            by rw [hidx e he]; exact ih _ (sizeOf_entry_lt es e he) e.2 rfl (hu2 e he) hes⟩
        rw [sortKeys_map, hkeys]
        simp only
        rw [hfold]
      · have hex : ∃ e ∈ es, e.1.isString = false := by
          by_contra hcon
          apply hstr
          intro e he
          cases hes : e.1.isString with
          | true => rfl
          | false => exact absurd ⟨e, he, hes⟩ hcon
        obtain ⟨e, he, hes⟩ := hex
        have hkeys : mapExcept (fun e => assertString e.1) es = .error .panic := by
          apply mapExcept_panic
          · intro a _
            exact assertString_cases a.1
          · exact ⟨e, he, assertString_panic e.1 hes⟩
        rw [sortKeys_map, hkeys]

/-- Evaluation of `sortKeys` on `{z: {y: 1, x: 2}, a: [{d: ~, c: s}, true]}`. -/
theorem sortKeys_exampleDoc : sortKeys exampleDoc = .ok sortedDoc := by
  simp [exampleDoc, exampleEntries, sortedDoc, sortKeys_map, sortKeys_seq, sortKeys_null,
    sortKeys_scalar, mapExcept, foldExcept, assertString, sortStrings, strLe, mapIndex,
    mapAssign, Key.ofString]

/-! ## Claims about `sortKeys` -/

/-- C1 (evaluation of the code): `sortKeys` gives the mappings of its result
no order.  A `map[string]interface{}`, such as the decoded `{b: 1, a: 2}`,
matches no case of the type switch and is returned as it is.  The value built
in the case for `map[interface{}]interface{}` is a Go map again: its entries
can be enumerated in any order, and for `{b: 1, a: 2}` the returned map has
the enumeration `b`, `a`, which is not in byte-wise order. -/
theorem sortKeys_gives_no_order :
    (∀ es, sortKeys (.strMap es) = .ok (.strMap es)) ∧
      sortKeys decodedTwoKeyDoc = .ok decodedTwoKeyDoc ∧
      (∃ fs, sortKeys twoKeyDoc = .ok (.map fs) ∧
        ∃ ks, ks.Perm (keysOf fs) ∧ keysSorted ks = false) := by
  refine ⟨sortKeys_strMap, sortKeys_strMap _, ?_⟩
  refine ⟨[(Key.ofString ['a'], .scalar (.int 2)), (Key.ofString ['b'], .scalar (.int 1))],
    ?_, [Key.ofString ['b'], Key.ofString ['a']], ?_, by decide⟩
  · simp [twoKeyDoc, sortKeys_map, sortKeys_scalar, mapExcept, foldExcept, assertString,
      sortStrings, strLe, mapIndex, mapAssign, Key.ofString]
  · exact List.Perm.swap _ _ _

/-- C2: on a value tree with (distinct) string keys `sortKeys` changes only
the enumeration order of mappings: `nil` and scalars are returned unchanged; a
sequence is returned with the same length and its i-th element is `sortKeys`
of the i-th input element; a mapping is returned with its keys permuted and
every key bound to `sortKeys` of the value it was bound to in the input (a
`map[string]interface{}` is returned as it is). -/
theorem sortKeys_only_reorders (v : Value) (hs : v.stringKeys = true)
    (hu : v.uniqueKeys = true) :
    match v with
    | .null => sortKeys v = .ok .null
    | .scalar a => sortKeys v = .ok (.scalar a)
    | .seq xs => ∃ ys, sortKeys v = .ok (.seq ys) ∧ ys.length = xs.length ∧
        ∀ (i : Nat) (x : Value), xs[i]? = some x → ∃ y, ys[i]? = some y ∧ sortKeys x = .ok y
    | .map es => ∃ fs, sortKeys v = .ok (.map fs) ∧ (keysOf fs).Perm (keysOf es) ∧
        ∀ k ∈ keysOf es, sortKeys (mapIndex es k) = .ok (mapIndex fs k)
    | .strMap es => sortKeys v = .ok (.strMap es) := by
  cases v with
  | null => exact sortKeys_null
  | scalar a => exact sortKeys_scalar a
  | strMap es => exact sortKeys_strMap es
  | seq xs =>
    have hs2 := (allMaps_seq _ xs).1 hs
    have hu2 := (allMaps_seq _ xs).1 hu
    have hx : ∀ x ∈ xs, sortKeys x = .ok (sortKeysD x) := by
      intro x hx
      obtain ⟨r, hr, _⟩ := sortKeys_spec x (hs2 x hx) (hu2 x hx)
      rw [sortKeysD_eq _ _ hr]; exact hr
    refine ⟨xs.map sortKeysD, sortKeys_seq_ok xs (fun x h => ⟨_, hx x h⟩), by simp, ?_⟩
    intro i x hi
    refine ⟨sortKeysD x, by simp [List.getElem?_map, hi], hx x (List.getElem?_mem hi)⟩
  | map es =>
    obtain ⟨hs1, hs2⟩ := (allMaps_map _ es).1 hs
    obtain ⟨hu1, hu2⟩ := (allMaps_map _ es).1 hu
    have hstr : ∀ e ∈ es, e.1.isString = true := by
      intro e he
      exact List.all_eq_true.1 hs1 e.1 (List.mem_map_of_mem Prod.fst he)
    have hnd : (keysOf es).Nodup := of_decide_eq_true hu1
    have hx : ∀ e ∈ es, sortKeys e.2 = .ok (sortKeysD e.2) := by
      intro e he
      obtain ⟨r, hr, _⟩ := sortKeys_spec e.2 (hs2 e he) (hu2 e he)
      rw [sortKeysD_eq _ _ hr]; exact hr
    refine ⟨_, sortKeys_map_ok es hstr hnd (fun e h => ⟨_, hx e h⟩), ?_, ?_⟩
    · rw [sortedEntries_keys]
      conv => rhs; rw [keysOf_eq_map_toStr es hstr]
      exact (sortStrings_perm _).map _
    · intro k hk
      obtain ⟨e, he, rfl⟩ := List.mem_map.1 hk
      have hmem : e.1.toStr ∈ sortStrings (es.map (fun e => e.1.toStr)) :=
        (sortStrings_perm _).mem_iff.2 (List.mem_map_of_mem (fun e => e.1.toStr) he)
      have hkey := Key.ofString_toStr e.1 (hstr e he)
      have hidx := mapIndex_map_ofString
        (fun k => sortKeysD (mapIndex es (Key.ofString k))) _ _ hmem
      rw [hkey] at hidx
      rw [hidx]
      simp only [hkey, mapIndex_of_nodup es hnd e he]
      exact hx e he

/-- Witness of C2 at the document `{z: {y: 1, x: 2}, a: [{d: ~, c: s}, true]}`. -/
theorem sortKeys_only_reorders_witness :
    exampleDoc.stringKeys = true ∧ exampleDoc.uniqueKeys = true ∧
      ∃ fs, sortKeys exampleDoc = .ok (.map fs) ∧ (keysOf fs).Perm (keysOf exampleEntries) ∧
        ∀ k ∈ keysOf exampleEntries, sortKeys (mapIndex exampleEntries k) = .ok (mapIndex fs k) :=
  ⟨by decide, by decide, sortKeys_only_reorders exampleDoc (by decide) (by decide)⟩

/-- C3: `sortKeys` is idempotent on value trees with (distinct) string keys:
sorting the result again returns the same tree, and a tree all of whose
mappings already enumerate their keys in byte-wise order is returned unchanged. -/
theorem sortKeys_idempotent (v : Value) (hs : v.stringKeys = true)
    (hu : v.uniqueKeys = true) :
    (∃ r, sortKeys v = .ok r ∧ sortKeys r = .ok r) ∧
      (v.mapsSorted = true → sortKeys v = .ok v) := by
  obtain ⟨r, hr, h1, h2, h3, _⟩ := sortKeys_spec v hs hu
  exact ⟨⟨r, hr, sortKeys_fixed r h1 h2 h3⟩, fun hm => sortKeys_fixed v hs hu hm⟩

/-- Witness of C3 at the document `{z: {y: 1, x: 2}, a: [{d: ~, c: s}, true]}`
and at the already sorted `{a: [{c: s, d: ~}, true], z: {x: 2, y: 1}}`. -/
theorem sortKeys_idempotent_witness :
    exampleDoc.stringKeys = true ∧ exampleDoc.uniqueKeys = true ∧
      (∃ r, sortKeys exampleDoc = .ok r ∧ sortKeys r = .ok r) ∧
      sortedDoc.stringKeys = true ∧ sortedDoc.uniqueKeys = true ∧
      sortedDoc.mapsSorted = true ∧ sortKeys sortedDoc = .ok sortedDoc :=
  ⟨by decide, by decide, (sortKeys_idempotent exampleDoc (by decide) (by decide)).1,
    by decide, by decide, by decide,
    (sortKeys_idempotent sortedDoc (by decide) (by decide)).2 (by decide)⟩

/-- C4, as stated, fails: on the document `{1: a}`, whose key is an integer,
`sortKeys` panics at the type assertion `key.(string)` and returns no value. -/
theorem sortKeys_int_key_panics : sortKeys intKeyDoc = .error .panic := by
  rw [intKeyDoc, sortKeys_map]
  rfl

/-- C4, amended: `sortKeys` is total and non-failing on every value tree whose
mapping keys are all strings: it returns a value.  (A mapping with a
non-string key is outside this guarantee: there is no fallback.) -/
theorem sortKeys_total_on_string_keys (v : Value) (hs : v.stringKeys = true) :
    ∃ r, sortKeys v = .ok r :=
  sortKeys_returns v hs

/-- Witness of amended C4: `sortKeys` returns a value on the string-keyed
`{z: {y: 1, x: 2}, a: [{d: ~, c: s}, true]}`, and also on the decoded
`{b: {true: x}, a: 1}`, whose outer `map[string]interface{}` it does not enter. -/
theorem sortKeys_total_on_string_keys_witness :
    (exampleDoc.stringKeys = true ∧ ∃ r, sortKeys exampleDoc = .ok r) ∧
      (decodedBoolKeyDoc.stringKeys = true ∧ ∃ r, sortKeys decodedBoolKeyDoc = .ok r) :=
  ⟨⟨by decide, sortKeys_total_on_string_keys exampleDoc (by decide)⟩,
    ⟨by decide, sortKeys_total_on_string_keys decodedBoolKeyDoc (by decide)⟩⟩

/-! ## Lemmas: quoting and the pass-through of short lines -/

theorem replaceScan_single (a b : Char) (t : GoString) :
    replaceScan [a] [b] 0 t = t.map (fun c => if c = a then b else c) := by
  induction t with
  | nil => rfl
  | cons c cs ih =>
    by_cases h : c = a
    · simp [replaceScan, startsWith, h, ih]
    · simp [replaceScan, startsWith, h, ih]

theorem quoteText_double (t : GoString) :
    quoteText t "double".toList = t.map quoteSubst := by
  simp only [quoteText, if_true, bytesReplace, stringsReplaceAll]
  exact replaceScan_single singleQuote doubleQuote t

theorem quoteText_single (t : GoString) : quoteText t "single".toList = t := by
  have h : ¬ ("single".toList = "double".toList) := by decide
  simp only [quoteText, h, if_false]

theorem splitScan_ne_nil (sep : GoString) (skip : Nat) (cur s : GoString) :
    splitScan sep skip cur s ≠ [] := by
  induction s generalizing skip cur with
  | nil => cases skip <;> simp [splitScan]
  | cons c cs ih =>
    cases skip with
    | zero =>
      rw [splitScan]
      split
      · simp
      · exact ih _ _
    | succ n =>
      rw [splitScan]
      exact ih _ _

theorem stringsJoin_cons (p : GoString) (ps : List GoString) (sep : GoString) (h : ps ≠ []) :
    stringsJoin (p :: ps) sep = p ++ sep ++ stringsJoin ps sep := by
  cases ps with
  | nil => exact absurd rfl h
  | cons q rest => rfl

theorem join_splitScan_single (c : Char) (cur s : GoString) :
    stringsJoin (splitScan [c] 0 cur s) [c] = cur ++ s := by
  induction s generalizing cur with
  | nil => simp [splitScan, stringsJoin]
  | cons d ds ih =>
    by_cases h : d = c
    · have : startsWith (d :: ds) [c] = true := by simp [startsWith, h]
      rw [splitScan, if_pos this, stringsJoin_cons _ _ _ (splitScan_ne_nil _ _ _ _)]
      simp only [List.length_singleton, Nat.sub_self]
      rw [ih, h]
      simp
    · have : startsWith (d :: ds) [c] = false := by simp [startsWith, h]
      rw [splitScan, this]
      simp only [Bool.false_eq_true, if_false]
      rw [ih]
      simp

/-- Joining the lines of a text with newlines gives the text back. -/
theorem join_split_newline (t : GoString) :
    stringsJoin (stringsSplit t [newline]) [newline] = t := by
  simp only [stringsSplit]
  rw [join_splitScan_single]
  simp

/-- The wrapping step returns the text unchanged when wrapping is off or no
line is longer than `lineWidth`, whatever `indent` and the fuel are. -/
theorem wrapText_short (fuel : Nat) (t : GoString) (indent lineWidth : Int)
    (h : lineWidth ≤ 0 ∨
      ∀ line ∈ stringsSplit t [newline], (line.length : Int) ≤ lineWidth) :
    wrapText fuel t indent lineWidth = .ok t := by
  by_cases hpos : lineWidth > 0
  · have hlines : ∀ line ∈ stringsSplit t [newline], (line.length : Int) ≤ lineWidth := by
      rcases h with h | h
      · omega
      · exact h
    have hmap : mapExcept (fun line =>
        if (line.length : Int) > lineWidth then wrapLine fuel line lineWidth indent
        else Except.ok line) (stringsSplit t [newline])
          = .ok ((stringsSplit t [newline]).map id) := by
      apply mapExcept_ok
      intro line hl
      have := hlines line hl
      have hn : ¬ ((line.length : Int) > lineWidth) := by omega
      simp only [hn, if_false, id]
    simp only [wrapText, hpos, if_true, hmap, List.map_id, join_split_newline]
  · simp only [wrapText, hpos, if_false]

/-! ## Claims about `dumpYAML` and the quoting step -/

/-- C5 (evaluation of the code): `dumpYAML` never hands `indent` to the
encoder.  Whenever wrapping is off or no line of the quoted encoder text is
longer than `lineWidth`, the output for any two indent widths is the same
text, the quoted encoder text itself; so the nesting indentation of the
output does not follow the indent option. -/
theorem dumpYAML_ignores_indent (marshal : Value → Except Fault GoString) (fuel : Nat)
    (data : Value) (indent1 indent2 : Int) (quotingStyle : GoString) (lineWidth : Int)
    (t : GoString) (ht : marshal data = .ok t)
    (hshort : lineWidth ≤ 0 ∨ ∀ line ∈ stringsSplit (quoteText t quotingStyle) [newline],
      (line.length : Int) ≤ lineWidth) :
    dumpYAML marshal fuel data indent1 quotingStyle lineWidth = .ok (quoteText t quotingStyle) ∧
      dumpYAML marshal fuel data indent2 quotingStyle lineWidth
        = .ok (quoteText t quotingStyle) := by
  simp only [dumpYAML, ht]
  exact ⟨wrapText_short fuel _ indent1 lineWidth hshort,
    wrapText_short fuel _ indent2 lineWidth hshort⟩

/-- C5 at the failing input: for `{z: {y: 1, x: 2}}` and an encoder text whose
nesting is indented by four spaces, `dumpYAML` with indent 2 and with indent 4
(line width 1000) both return that text unchanged. -/
theorem dumpYAML_ignores_indent_witness :
    sampleMarshal nestedDoc = .ok "z:\n    x: 2\n    y: 1\n".toList ∧
      dumpYAML sampleMarshal 0 nestedDoc 2 "single".toList 1000
        = .ok "z:\n    x: 2\n    y: 1\n".toList ∧
      dumpYAML sampleMarshal 0 nestedDoc 4 "single".toList 1000
        = .ok "z:\n    x: 2\n    y: 1\n".toList :=
  ⟨rfl, dumpYAML_ignores_indent sampleMarshal 0 nestedDoc 2 4 "single".toList 1000
    "z:\n    x: 2\n    y: 1\n".toList rfl (Or.inr (by decide))⟩

/-- C8: for every encoder text, every indent and every line width, if
`lineWidth <= 0`, or `lineWidth > 0` and no newline-separated line of the
(quoted) text is longer than `lineWidth` bytes, then the output of `dumpYAML`
is that text, byte for byte. -/
theorem dumpYAML_short_lines_unchanged (marshal : Value → Except Fault GoString) (fuel : Nat)
    (data : Value) (indent : Int) (quotingStyle : GoString) (lineWidth : Int)
    (t : GoString) (ht : marshal data = .ok t)
    (h : lineWidth ≤ 0 ∨ (0 < lineWidth ∧
      ∀ line ∈ stringsSplit (quoteText t quotingStyle) [newline],
        (line.length : Int) ≤ lineWidth)) :
    dumpYAML marshal fuel data indent quotingStyle lineWidth
      = .ok (quoteText t quotingStyle) := by
  simp only [dumpYAML, ht]
  apply wrapText_short
  rcases h with h | ⟨_, h⟩
  · exact Or.inl h
  · exact Or.inr h

/-- Witness of C8: a text with line width 8, the length of its longest line,
and the same text with wrapping switched off. -/
theorem dumpYAML_short_lines_unchanged_witness :
    (dumpYAML sampleMarshal 0 nestedDoc 2 "double".toList 8
        = .ok (quoteText "z:\n    x: 2\n    y: 1\n".toList "double".toList)) ∧
      (dumpYAML sampleMarshal 0 nestedDoc 2 "double".toList (-1)
        = .ok (quoteText "z:\n    x: 2\n    y: 1\n".toList "double".toList)) :=
  ⟨dumpYAML_short_lines_unchanged sampleMarshal 0 nestedDoc 2 "double".toList 8
      "z:\n    x: 2\n    y: 1\n".toList rfl (Or.inr ⟨by decide, by decide⟩),
    dumpYAML_short_lines_unchanged sampleMarshal 0 nestedDoc 2 "double".toList (-1)
      "z:\n    x: 2\n    y: 1\n".toList rfl (Or.inl (by decide))⟩

/-- C9: the quoting step is a byte-for-byte substitution on the encoder text
`t`.  With quoting style "double" the text handed to the wrapping step is `t`
with every single quote replaced by a double quote: it has the length of `t`,
holds no single quote, and agrees with `t` at every position that holds
another byte.  With quoting style "single" it is `t` itself. -/
theorem dumpYAML_quoting_substitution (marshal : Value → Except Fault GoString) (fuel : Nat)
    (data : Value) (indent lineWidth : Int) (t : GoString) (ht : marshal data = .ok t) :
    (dumpYAML marshal fuel data indent "double".toList lineWidth
        = wrapText fuel (t.map quoteSubst) indent lineWidth ∧
      bytesReplace t [singleQuote] [doubleQuote] = t.map quoteSubst ∧
      (t.map quoteSubst).length = t.length ∧
      singleQuote ∉ t.map quoteSubst ∧
      (∀ (i : Nat) (c : Char), t[i]? = some c →
        (t.map quoteSubst)[i]? = some (if c = singleQuote then doubleQuote else c))) ∧
    dumpYAML marshal fuel data indent "single".toList lineWidth
      = wrapText fuel t indent lineWidth := by
  refine ⟨⟨?_, ?_, by simp, ?_, ?_⟩, ?_⟩
  · simp only [dumpYAML, ht, quoteText_double]
  · exact replaceScan_single singleQuote doubleQuote t
  · intro hmem
    obtain ⟨c, _, hc⟩ := List.mem_map.1 hmem
    unfold quoteSubst at hc
    by_cases h : c = singleQuote
    · rw [if_pos h] at hc
      exact absurd hc (by decide)
    · rw [if_neg h] at hc
      exact h hc
  · intro i c hi
    simp [List.getElem?_map, hi, quoteSubst]
  · simp only [dumpYAML, ht, quoteText_single]

/-- Witness of C9 at the encoder text `'it''s'` followed by a newline. -/
theorem dumpYAML_quoting_substitution_witness :
    quotedMarshal .null = .ok (quotedIts ++ [newline]) ∧
      dumpYAML quotedMarshal 0 .null 2 "double".toList 1000
        = wrapText 0 ((quotedIts ++ [newline]).map quoteSubst) 2 1000 ∧
      dumpYAML quotedMarshal 0 .null 2 "single".toList 1000
        = wrapText 0 (quotedIts ++ [newline]) 2 1000 :=
  ⟨rfl, (dumpYAML_quoting_substitution quotedMarshal 0 .null 2 1000 _ rfl).1.1,
    (dumpYAML_quoting_substitution quotedMarshal 0 .null 2 1000 _ rfl).2⟩

/-- C10, as stated, fails: the quote substitution does not turn the encoder
text `'it''s'` into the text that keeps the doubled single quote. -/
theorem quoteText_its_not_kept :
    quoteText quotedIts "double".toList
      ≠ [doubleQuote, 'i', 't', singleQuote, singleQuote, 's', doubleQuote] := by
  decide

/-- C10, amended: with quoting style "double" the encoder text `'it''s'` is
turned by the quote substitution into the text in which all four single
quotes, the doubled one inside the string included, are double quotes. -/
theorem quoteText_its_all_replaced :
    quoteText quotedIts "double".toList
        = [doubleQuote, 'i', 't', doubleQuote, doubleQuote, 's', doubleQuote] ∧
      bytesReplace quotedIts [singleQuote] [doubleQuote]
        = [doubleQuote, 'i', 't', doubleQuote, doubleQuote, 's', doubleQuote] := by
  decide

/-! ## Lemmas: `splitLine` -/

theorem scanBack_range (s : GoString) (n : Nat) :
    scanBack s n = -1 ∨ (0 ≤ scanBack s n ∧ scanBack s n ≤ n) := by
  induction n with
  | zero =>
    unfold scanBack
    split
    · right; simp
    · left; rfl
  | succ n ih =>
    unfold scanBack
    split
    · right; omega
    · rcases ih with h | h
      · left; exact h
      · right; omega

theorem scanBack_no_space (s : GoString) (n : Nat) (h : ∀ i, i ≤ n → s[i]? ≠ some ' ') :
    scanBack s n = -1 := by
  induction n with
  | zero =>
    unfold scanBack
    rw [if_neg (h 0 (Nat.le_refl 0))]
  | succ n ih =>
    unfold scanBack
    rw [if_neg (h (n + 1) (Nat.le_refl _))]
    exact ih (fun i hi => h i (Nat.le_succ_of_le hi))

theorem getElem?_ne_of_not_mem (s : GoString) (c : Char) (h : c ∉ s) (i : Nat) :
    s[i]? ≠ some c := by
  intro hi
  exact h (List.getElem?_mem hi)

/-- The loop is left when the remaining text fits the width. -/
theorem splitLineLoop_done (fuel : Nat) (s : GoString) (width : Int) (parts : List GoString)
    (h : (s.length : Int) ≤ width) :
    splitLineLoop (fuel + 1) s width parts
      = .ok (if s.length > 0 then parts ++ [s] else parts) := by
  have hn : ¬ ((s.length : Int) > width) := by omega
  rw [splitLineLoop, if_neg hn]
  split <;> rfl

/-- One iteration of the loop when no space is found: a hard break at `w`. -/
theorem splitLineLoop_hard (fuel : Nat) (s : GoString) (w : Nat) (parts : List GoString)
    (hlen : w < s.length) (hscan : scanBack s w = -1) :
    splitLineLoop (fuel + 1) s (w : Int) parts
      = splitLineLoop fuel (s.drop w) (w : Int) (parts ++ [s.take w]) := by
  have h1 : ((s.length : Int) > (w : Int)) := by omega
  have h2 : ¬ ((w : Int) < 0) := by omega
  rw [splitLineLoop, if_pos h1]
  simp only [h2, if_false, Int.toNat_ofNat, hscan]
  rfl

/-- One iteration of the loop when a space is found at index `j`: the part
before the space is appended and the space is dropped. -/
theorem splitLineLoop_space (fuel : Nat) (s : GoString) (w j : Nat) (parts : List GoString)
    (hlen : w < s.length) (hscan : scanBack s w = (j : Int)) :
    splitLineLoop (fuel + 1) s (w : Int) parts
      = splitLineLoop fuel (s.drop (j + 1)) (w : Int) (parts ++ [s.take j]) := by
  have h1 : ((s.length : Int) > (w : Int)) := by omega
  have h2 : ¬ ((w : Int) < 0) := by omega
  have h3 : (0 : Int) ≤ (j : Int) := by omega
  rw [splitLineLoop, if_pos h1]
  simp only [h2, if_false, Int.toNat_ofNat, hscan, h3, if_true]

/-- For a width of at least 1, `splitLine` returns once the fuel exceeds the
length of the text: every iteration shortens the remaining text. -/
theorem splitLineLoop_terminates (fuel : Nat) (s : GoString) (w : Nat) (parts : List GoString)
    (hw : 1 ≤ w) (hf : s.length < fuel) :
    ∃ r, splitLineLoop fuel s (w : Int) parts = .ok r := by
  induction fuel generalizing s parts with
  | zero => omega
  | succ fuel ih =>
    by_cases hlen : w < s.length
    · rcases scanBack_range s w with h | ⟨h0, hle⟩
      · rw [splitLineLoop_hard fuel s w parts hlen h]
        apply ih
        rw [List.length_drop]; omega
      · obtain ⟨j, hj⟩ := Int.eq_ofNat_of_zero_le h0
        rw [splitLineLoop_space fuel s w j parts hlen hj]
        apply ih
        rw [List.length_drop]; omega
    · rw [splitLineLoop_done fuel s w parts (by omega)]
      exact ⟨_, rfl⟩

/-- A result reached with some fuel is reached with any larger fuel: the
value returned does not depend on the fuel. -/
theorem splitLineLoop_more_fuel (fuel extra : Nat) (s : GoString) (width : Int)
    (parts r : List GoString) (h : splitLineLoop fuel s width parts = .ok r) :
    splitLineLoop (fuel + extra) s width parts = .ok r := by
  induction fuel generalizing s parts with
  | zero => simp [splitLineLoop] at h
  | succ fuel ih =>
    have hfe : fuel + 1 + extra = (fuel + extra) + 1 := by omega
    rw [hfe]
    rw [splitLineLoop] at h ⊢
    by_cases hgt : (s.length : Int) > width
    · simp only [hgt, if_true] at h ⊢
      by_cases hw : width < 0
      · have h0 : ¬ (0 ≤ width) := by omega
        simp only [hw, if_true, h0, if_false] at h ⊢
        by_cases hm : width = -1
        · simp only [hm, if_true] at h
          cases h
        · simp only [hm, if_false] at h ⊢
          exact ih _ _ h
      · simp only [hw, if_false] at h ⊢
        by_cases hi : 0 ≤ scanBack s width.toNat
        · simp only [hi, if_true] at h ⊢
          exact ih _ _ h
        · simp only [hi, if_false] at h ⊢
          by_cases hm : scanBack s width.toNat = -1
          · simp only [hm, if_true] at h ⊢
            exact ih _ _ h
          · simp only [hm, if_false] at h ⊢
            exact ih _ _ h
    · simp only [hgt, if_false] at h ⊢
      exact h

/-- The result of `splitLine` on a text without spaces: hard breaks only. -/
theorem splitLineLoop_no_space (fuel : Nat) (s : GoString) (w : Nat) (parts : List GoString)
    (hw : 1 ≤ w) (hs : ' ' ∉ s) (hf : s.length < fuel) :
    ∃ segs, splitLineLoop fuel s (w : Int) parts = .ok (parts ++ segs) ∧
      segs.flatten = s ∧ segs.length = (s.length + w - 1) / w ∧
      (∀ p ∈ segs, p.length ≤ w) ∧
      (∀ p ∈ segs.dropLast, p.length = w) ∧
      (∀ p, segs.getLast? = some p → 1 ≤ p.length ∧ p.length ≤ w) := by
  induction fuel generalizing s parts with
  | zero => omega
  | succ fuel ih =>
    by_cases hlen : w < s.length
    · have hscan : scanBack s w = -1 :=
        scanBack_no_space s w (fun i _ => getElem?_ne_of_not_mem s ' ' hs i)
      have hs2 : ' ' ∉ s.drop w := fun h => hs (List.mem_of_mem_drop h)
      have hl2 : (s.drop w).length = s.length - w := List.length_drop _ _
      obtain ⟨segs, h1, h2, h3, h4, h5, h6⟩ :=
        ih (s.drop w) (parts ++ [s.take w]) hs2 (by omega)
      have htake : (s.take w).length = w := by
        rw [List.length_take]; omega
      have hcount : (s.length + w - 1) / w = (s.length - w + w - 1) / w + 1 := by
        have : s.length + w - 1 = (s.length - w + w - 1) + w := by omega
        rw [this, Nat.add_div_right _ (by omega : 0 < w)]
      have hne : segs ≠ [] := by
        intro hnil
        rw [hnil, hl2] at h3
        have : 0 < (s.length - w + w - 1) / w := Nat.div_pos (by omega) (by omega)
        simp at h3
        omega
      refine ⟨s.take w :: segs, ?_, ?_, ?_, ?_, ?_, ?_⟩
      · rw [splitLineLoop_hard fuel s w parts hlen hscan, h1]
        simp
      · simp [h2]
      · rw [List.length_cons, h3, hl2, hcount]
      · intro p hp
        rcases List.mem_cons.1 hp with rfl | hp
        · omega
        · exact h4 p hp
      · rw [List.dropLast_cons_of_ne_nil hne]
        intro p hp
        rcases List.mem_cons.1 hp with rfl | hp
        · exact htake
        · exact h5 p hp
      · intro p hp
        cases segs with
        | nil => exact absurd rfl hne
        | cons q qs =>
          rw [List.getLast?_cons_cons] at hp
          exact h6 p hp
    · rw [splitLineLoop_done fuel s w parts (by omega)]
      by_cases hpos : s.length > 0
      · refine ⟨[s], by rw [if_pos hpos], by simp, ?_, ?_, by simp, ?_⟩
        · have : (s.length + w - 1) / w = 1 := by
            apply Nat.div_eq_of_lt_le <;> omega
          rw [this]; rfl
        · intro p hp
          rw [List.mem_singleton.1 hp]; omega
        · intro p hp
          simp only [List.getLast?_singleton, Option.some.injEq] at hp
          subst hp
          omega
      · have hnil : s = [] := List.length_eq_zero.1 (by omega)
        refine ⟨[], by rw [if_neg hpos]; simp, by simp [hnil], ?_, by simp, by simp, by simp⟩
        have hlt : s.length + w - 1 < w := by
          rw [hnil, List.length_nil]; omega
        rw [Nat.div_eq_of_lt hlt]
        rfl

theorem splitLine_two_parts (fuel : Nat) (s : GoString) (w : Nat)
    (hs : ' ' ∉ s) (h1 : w < s.length) (h2 : s.length ≤ 2 * w) (hf : 2 ≤ fuel) :
    splitLine fuel s (w : Int) = .ok [s.take w, s.drop w] := by
  obtain ⟨f, rfl⟩ : ∃ f, fuel = f + 1 + 1 := ⟨fuel - 2, by omega⟩
  have hscan : scanBack s w = -1 :=
    scanBack_no_space s w (fun i _ => getElem?_ne_of_not_mem s ' ' hs i)
  have hl2 : (s.drop w).length = s.length - w := List.length_drop _ _
  rw [splitLine, splitLineLoop_hard (f + 1) s w [] h1 hscan,
    splitLineLoop_done f (s.drop w) w _ (by omega)]
  have hpos : (s.drop w).length > 0 := by omega
  rw [if_pos hpos]
  rfl

/-- Evaluation of `splitLine` on a text with spaces and width 7. -/
theorem splitLine_example :
    splitLine 27 "hello world this is a test".toList 7
      = .ok ["hello".toList, "world".toList, "this is".toList, "a test".toList] := by
  rfl

/-! ## Lemmas: `wrapLine` -/

theorem stringsRepeat_space (n : Int) (h : 0 ≤ n) :
    stringsRepeat [' '] n = .ok (List.replicate n.toNat ' ') := by
  have hn : ¬ (n < 0) := by omega
  simp only [stringsRepeat, hn, if_false, List.flatten_replicate_singleton]

theorem wrapParts_succ (indentStr : GoString) (lineWidth : Int) (h : 0 ≤ lineWidth) (i : Nat)
    (parts : List GoString) :
    wrapParts indentStr lineWidth (i + 1) parts
      = .ok (parts.map (fun p => indentStr ++ List.replicate lineWidth.toNat ' ' ++ p)) := by
  induction parts generalizing i with
  | nil => rfl
  | cons p ps ih =>
    rw [wrapParts, stringsRepeat_space lineWidth h]
    simp only
    rw [ih (i + 1)]
    rfl

theorem wrapParts_zero (indentStr : GoString) (lineWidth : Int) (h : 0 ≤ lineWidth)
    (parts : List GoString) :
    wrapParts indentStr lineWidth 0 parts
      = .ok ((parts.take 1).map (fun p => indentStr ++ p) ++
          (parts.drop 1).map (fun p => indentStr ++ List.replicate lineWidth.toNat ' ' ++ p)) := by
  cases parts with
  | nil => rfl
  | cons p ps =>
    rw [wrapParts, wrapParts_succ indentStr lineWidth h 0 ps]
    rfl

/-- The text returned by `wrapLine` once `splitLine` has returned `parts`. -/
theorem wrapLine_of_parts (fuel : Nat) (line : GoString) (lineWidth indent : Int)
    (parts : List GoString) (h0 : 0 ≤ indent) (h1 : 0 ≤ lineWidth)
    (hp : splitLine fuel line (lineWidth - indent) = .ok parts) :
    wrapLine fuel line lineWidth indent
      = .ok (stringsJoin
          ((parts.take 1).map (fun p => List.replicate indent.toNat ' ' ++ p) ++
            (parts.drop 1).map
              (fun p => List.replicate (indent + lineWidth).toNat ' ' ++ p)) [newline]) := by
  have hlen : ((List.replicate indent.toNat ' ').length : Int) = indent := by
    rw [List.length_replicate, Int.toNat_of_nonneg h0]
  have hpad : ∀ p : GoString,
      List.replicate indent.toNat ' ' ++ List.replicate lineWidth.toNat ' ' ++ p
        = List.replicate (indent + lineWidth).toNat ' ' ++ p := by
    intro p
    rw [List.append_replicate_replicate, Int.toNat_add h0 h1]
  rw [wrapLine, stringsRepeat_space indent h0]
  simp only [hlen, hp, wrapParts_zero _ lineWidth h1, hpad]

/-! ## Claims about `wrapLine` and `splitLine` -/

/-- C6: for every line, line width and indent with `indent >= 0` and
`lineWidth - indent >= 1`, `wrapLine` returns (given fuel above the length of
the line) the segments of `splitLine(line, lineWidth - indent)` joined by
newline, the first segment behind exactly `indent` spaces and every later
segment behind exactly `indent + lineWidth` spaces.  In particular a line of
1200 non-space bytes with line width 1000 and indent 2 becomes two lines:
2 spaces and the first 998 bytes, then 1002 spaces and the other 202 bytes. -/
theorem wrapLine_joins_segments (fuel : Nat) (line : GoString) (lineWidth indent : Int)
    (h0 : 0 ≤ indent) (h1 : 1 ≤ lineWidth - indent) (hf : line.length < fuel) :
    (∃ parts, splitLine fuel line (lineWidth - indent) = .ok parts ∧
      wrapLine fuel line lineWidth indent
        = .ok (stringsJoin
            ((parts.take 1).map (fun p => List.replicate indent.toNat ' ' ++ p) ++
              (parts.drop 1).map
                (fun p => List.replicate (indent + lineWidth).toNat ' ' ++ p)) [newline])) ∧
    (lineWidth = 1000 → indent = 2 → line.length = 1200 → ' ' ∉ line →
      wrapLine fuel line lineWidth indent
        = .ok (List.replicate 2 ' ' ++ line.take 998 ++ [newline] ++
            List.replicate 1002 ' ' ++ line.drop 998) ∧
      (line.take 998).length = 998 ∧ (line.drop 998).length = 202) := by
  have hlw : 0 ≤ lineWidth := by omega
  constructor
  · obtain ⟨w, hw⟩ := Int.eq_ofNat_of_zero_le (by omega : 0 ≤ lineWidth - indent)
    obtain ⟨parts, hparts⟩ := splitLineLoop_terminates fuel line w [] (by omega) hf
    refine ⟨parts, ?_, ?_⟩
    · rw [hw]; exact hparts
    · apply wrapLine_of_parts fuel line lineWidth indent parts h0 hlw
      rw [hw]; exact hparts
  · intro hl hi hlen hs
    subst hl hi
    have hsplit : splitLine fuel line ((1000 : Int) - 2)
        = .ok [line.take 998, line.drop 998] :=
      splitLine_two_parts fuel line 998 hs (by omega) (by omega) (by omega)
    refine ⟨?_, ?_, ?_⟩
    · rw [wrapLine_of_parts fuel line 1000 2 _ h0 hlw hsplit]
      simp only [List.take_succ_cons, List.take_zero, List.drop_succ_cons, List.drop_zero,
        List.map_cons, List.map_nil, List.singleton_append, stringsJoin, List.append_assoc]
      rfl
    · rw [List.length_take]; omega
    · rw [List.length_drop]; omega

/-- Witness of C6: the line of 1200 bytes `a` with line width 1000 and indent 2. -/
theorem wrapLine_joins_segments_witness :
    (0 : Int) ≤ 2 ∧ (1 : Int) ≤ 1000 - 2 ∧ (List.replicate 1200 'a').length < 1201 ∧
      wrapLine 1201 (List.replicate 1200 'a') 1000 2
        = .ok (List.replicate 2 ' ' ++ (List.replicate 1200 'a').take 998 ++ [newline] ++
            List.replicate 1002 ' ' ++ (List.replicate 1200 'a').drop 998) :=
  ⟨by decide, by decide, by rw [List.length_replicate]; omega,
    ((wrapLine_joins_segments 1201 (List.replicate 1200 'a') 1000 2 (by decide) (by decide)
      (by rw [List.length_replicate]; omega)).2 rfl rfl (List.length_replicate _ _)
      (fun h => absurd (List.eq_of_mem_replicate h) (by decide))).1⟩

/-- C7: for every width of at least 1 and every string `s` without a space
(of length `L`, in particular `L > width`), `splitLine` returns, given fuel
above `L`, exactly `ceil(L / width)` segments; every segment has length at most
`width`, all but the last exactly `width`, the last between 1 and `width`;
and the concatenation of the segments is `s`. -/
theorem splitLine_hard_breaks (fuel : Nat) (s : GoString) (w : Nat) (hw : 1 ≤ w)
    (hs : ' ' ∉ s) (hf : s.length < fuel) :
    ∃ parts, splitLine fuel s (w : Int) = .ok parts ∧
      parts.length = (s.length + w - 1) / w ∧
      (∀ p ∈ parts, p.length ≤ w) ∧
      (∀ p ∈ parts.dropLast, p.length = w) ∧
      (∀ p, parts.getLast? = some p → 1 ≤ p.length ∧ p.length ≤ w) ∧
      parts.flatten = s := by
  obtain ⟨segs, h1, h2, h3, h4, h5, h6⟩ := splitLineLoop_no_space fuel s w [] hw hs hf
  exact ⟨segs, by rw [splitLine, h1]; rfl, h3, h4, h5, h6, h2⟩

/-- Witness of C7: ten bytes without a space and width 4 give three segments. -/
theorem splitLine_hard_breaks_witness :
    1 ≤ 4 ∧ ' ' ∉ "abcdefghij".toList ∧ "abcdefghij".toList.length < 11 ∧
      ∃ parts, splitLine 11 "abcdefghij".toList ((4 : Nat) : Int) = .ok parts ∧
        parts.length = ("abcdefghij".toList.length + 4 - 1) / 4 ∧
        (∀ p ∈ parts, p.length ≤ 4) ∧
        (∀ p ∈ parts.dropLast, p.length = 4) ∧
        (∀ p, parts.getLast? = some p → 1 ≤ p.length ∧ p.length ≤ 4) ∧
        parts.flatten = "abcdefghij".toList :=
  ⟨by decide, by decide, by decide,
    splitLine_hard_breaks 11 "abcdefghij".toList 4 (by decide) (by decide) (by decide)⟩

/-! ## Lemmas: the backward search for a space -/

theorem scanBack_found (s : GoString) (n j : Nat) (h : scanBack s n = (j : Int)) :
    j ≤ n ∧ s[j]? = some ' ' ∧ ∀ k, j < k → k ≤ n → s[k]? ≠ some ' ' := by
  induction n with
  | zero =>
    unfold scanBack at h
    split at h
    · rename_i h0
      have hj : j = 0 := by omega
      subst hj
      exact ⟨Nat.le_refl 0, h0, fun k h1 h2 => by omega⟩
    · omega
  | succ n ih =>
    unfold scanBack at h
    split at h
    · rename_i h0
      have hj : j = n + 1 := by omega
      subst hj
      exact ⟨Nat.le_refl _, h0, fun k h1 h2 => by omega⟩
    · rename_i h0
      obtain ⟨h1, h2, h3⟩ := ih h
      refine ⟨by omega, h2, ?_⟩
      intro k hk1 hk2
      by_cases hk : k = n + 1
      · rw [hk]; exact h0
      · exact h3 k hk1 (by omega)

theorem scanBack_none (s : GoString) (n : Nat) (h : scanBack s n = -1) :
    ∀ k, k ≤ n → s[k]? ≠ some ' ' := by
  induction n with
  | zero =>
    unfold scanBack at h
    split at h
    · omega
    · rename_i h0
      intro k hk
      have : k = 0 := by omega
      rw [this]; exact h0
  | succ n ih =>
    unfold scanBack at h
    split at h
    · omega
    · rename_i h0
      intro k hk
      by_cases hk2 : k = n + 1
      · rw [hk2]; exact h0
      · exact ih h k (by omega)

/-- The backward search returns the largest index at most `n` that holds a space. -/
theorem scanBack_eq (s : GoString) (n j : Nat) (hj : j ≤ n) (hsp : s[j]? = some ' ')
    (hmax : ∀ k, j < k → k ≤ n → s[k]? ≠ some ' ') : scanBack s n = (j : Int) := by
  rcases scanBack_range s n with h | ⟨h0, _⟩
  · exact absurd hsp (scanBack_none s n h j hj)
  · obtain ⟨i, hi⟩ := Int.eq_ofNat_of_zero_le h0
    obtain ⟨h1, h2, h3⟩ := scanBack_found s n i hi
    have : i = j := by
      rcases Nat.lt_trichotomy i j with hlt | heq | hgt
      · exact absurd hsp (h3 j hlt hj)
      · exact heq
      · exact absurd h2 (hmax i hgt h1)
    rw [hi, this]

theorem split_at_space (s : GoString) (j : Nat) (h : s[j]? = some ' ') :
    s = s.take j ++ ' ' :: s.drop (j + 1) := by
  have hlt : j < s.length := by
    by_contra hcon
    rw [List.getElem?_eq_none (by omega)] at h
    cases h
  have hget : s[j] = ' ' := by
    rw [List.getElem?_eq_getElem hlt] at h
    exact Option.some.inj h
  conv => lhs; rw [← List.take_append_drop j s]
  rw [List.drop_eq_getElem_cons hlt, hget]

theorem dropSpaces_append (a b : GoString) :
    dropSpaces (a ++ b) = dropSpaces a ++ dropSpaces b := by
  simp [dropSpaces]

theorem dropSpaces_at_space (s : GoString) (j : Nat) (h : s[j]? = some ' ') :
    dropSpaces s = dropSpaces (s.take j) ++ dropSpaces (s.drop (j + 1)) := by
  conv => lhs; rw [split_at_space s j h]
  simp [dropSpaces]

/-- For a width of at least 1 and fuel above the length of the text,
`splitLine` appends to the parts collected so far a list of segments that
depends on the text alone; every segment has length at most the width, and
the segments together hold the non-space bytes of the text in order. -/
theorem splitLineLoop_segments (fuel : Nat) (s : GoString) (w : Nat) (hw : 1 ≤ w)
    (hf : s.length < fuel) :
    ∃ segs, (∀ acc, splitLineLoop fuel s (w : Int) acc = .ok (acc ++ segs)) ∧
      (∀ p ∈ segs, p.length ≤ w) ∧ dropSpaces segs.flatten = dropSpaces s := by
  induction fuel generalizing s with
  | zero => omega
  | succ fuel ih =>
    by_cases hlen : w < s.length
    · rcases scanBack_range s w with h | ⟨h0, _⟩
      · obtain ⟨segs, h1, h2, h3⟩ := ih (s.drop w) (by rw [List.length_drop]; omega)
        refine ⟨s.take w :: segs, ?_, ?_, ?_⟩
        · intro acc
          rw [splitLineLoop_hard fuel s w acc hlen h, h1]
          simp
        · intro p hp
          rcases List.mem_cons.1 hp with rfl | hp
          · rw [List.length_take]; omega
          · exact h2 p hp
        · rw [List.flatten_cons, dropSpaces_append, h3, ← dropSpaces_append,
            List.take_append_drop]
      · obtain ⟨j, hj⟩ := Int.eq_ofNat_of_zero_le h0
        obtain ⟨hjw, hsp, _⟩ := scanBack_found s w j hj
        obtain ⟨segs, h1, h2, h3⟩ := ih (s.drop (j + 1)) (by rw [List.length_drop]; omega)
        refine ⟨s.take j :: segs, ?_, ?_, ?_⟩
        · intro acc
          rw [splitLineLoop_space fuel s w j acc hlen hj, h1]
          simp
        · intro p hp
          rcases List.mem_cons.1 hp with rfl | hp
          · rw [List.length_take]; omega
          · exact h2 p hp
        · rw [List.flatten_cons, dropSpaces_append, h3, ← dropSpaces_at_space s j hsp]
    · by_cases hpos : s.length > 0
      · refine ⟨[s], ?_, ?_, by simp⟩
        · intro acc
          rw [splitLineLoop_done fuel s w acc (by omega), if_pos hpos]
        · intro p hp
          rw [List.mem_singleton.1 hp]; omega
      · have hnil : s = [] := List.length_eq_zero.1 (by omega)
        refine ⟨[], ?_, by simp, by simp [hnil]⟩
        intro acc
        rw [splitLineLoop_done fuel s w acc (by omega), if_neg hpos]
        simp

/-- One iteration that found a space at index `j`, for `splitLine` as a whole. -/
theorem splitLine_cons_of_space (fuel : Nat) (s : GoString) (w j : Nat) (hw : 1 ≤ w)
    (hlen : w < s.length) (hscan : scanBack s w = (j : Int)) (hf : s.length < fuel) :
    ∃ rest, splitLine fuel (s.drop (j + 1)) (w : Int) = .ok rest ∧
      splitLine fuel s (w : Int) = .ok (s.take j :: rest) := by
  obtain ⟨f, rfl⟩ : ∃ f, fuel = f + 1 := ⟨fuel - 1, by omega⟩
  obtain ⟨segs, h1, _⟩ :=
    splitLineLoop_segments f (s.drop (j + 1)) w hw (by rw [List.length_drop]; omega)
  refine ⟨segs, ?_, ?_⟩
  · have := splitLineLoop_more_fuel f 1 (s.drop (j + 1)) (w : Int) [] segs
      (by rw [h1]; rfl)
    exact this
  · rw [splitLine, splitLineLoop_space f s w j [] hlen hscan, h1]
    rfl

/-- One iteration that found no space, for `splitLine` as a whole. -/
theorem splitLine_cons_of_no_space (fuel : Nat) (s : GoString) (w : Nat) (hw : 1 ≤ w)
    (hlen : w < s.length) (hscan : scanBack s w = -1) (hf : s.length < fuel) :
    ∃ rest, splitLine fuel (s.drop w) (w : Int) = .ok rest ∧
      splitLine fuel s (w : Int) = .ok (s.take w :: rest) := by
  obtain ⟨f, rfl⟩ : ∃ f, fuel = f + 1 := ⟨fuel - 1, by omega⟩
  obtain ⟨segs, h1, _⟩ :=
    splitLineLoop_segments f (s.drop w) w hw (by rw [List.length_drop]; omega)
  refine ⟨segs, ?_, ?_⟩
  · have := splitLineLoop_more_fuel f 1 (s.drop w) (w : Int) [] segs (by rw [h1]; rfl)
    exact this
  · rw [splitLine, splitLineLoop_hard f s w [] hlen hscan, h1]
    rfl

/-! ## Claims about the steps of `splitLine` -/

/-- C15: for every string `s`, with or without spaces, and every width of at
least 1, `splitLine` returns (given fuel above the length of `s`) and every
segment it returns has length at most the width. -/
theorem splitLine_segments_within_width (fuel : Nat) (s : GoString) (w : Nat) (hw : 1 ≤ w)
    (hf : s.length < fuel) :
    ∃ parts, splitLine fuel s (w : Int) = .ok parts ∧ ∀ p ∈ parts, p.length ≤ w := by
  obtain ⟨segs, h1, h2, _⟩ := splitLineLoop_segments fuel s w hw hf
  exact ⟨segs, by rw [splitLine, h1]; rfl, h2⟩

/-- Witness of C15: a text with spaces and width 7. -/
theorem splitLine_segments_within_width_witness :
    1 ≤ 7 ∧ "hello world this is a test".toList.length < 27 ∧
      ∃ parts, splitLine 27 "hello world this is a test".toList ((7 : Nat) : Int) = .ok parts ∧
        ∀ p ∈ parts, p.length ≤ 7 :=
  ⟨by decide, by decide,
    splitLine_segments_within_width 27 "hello world this is a test".toList 7
      (by decide) (by decide)⟩

/-- C16: for every width of at least 1 and every string `s` longer than the
width that has a space at an index between 0 and the width, with `j` the
largest such index, `splitLine(s, width)` is the segment `s[0..j)` followed by
`splitLine(s[j+1..], width)`: the break is at the nearest space at or before
position `width`, and that one space is dropped. -/
theorem splitLine_breaks_at_last_space (fuel : Nat) (s : GoString) (w j : Nat) (hw : 1 ≤ w)
    (hlen : w < s.length) (hj : j ≤ w) (hsp : s[j]? = some ' ')
    (hmax : ∀ k, j < k → k ≤ w → s[k]? ≠ some ' ') (hf : s.length < fuel) :
    ∃ rest, splitLine fuel (s.drop (j + 1)) (w : Int) = .ok rest ∧
      splitLine fuel s (w : Int) = .ok (s.take j :: rest) :=
  splitLine_cons_of_space fuel s w j hw hlen (scanBack_eq s w j hj hsp hmax) hf

/-- Witness of C16: in `hello world this` with width 7 the last space at an
index up to 7 is at index 5. -/
theorem splitLine_breaks_at_last_space_witness :
    1 ≤ 7 ∧ 7 < "hello world this".toList.length ∧ 5 ≤ 7 ∧
      "hello world this".toList[5]? = some ' ' ∧
      (∀ k, 5 < k → k ≤ 7 → "hello world this".toList[k]? ≠ some ' ') ∧
      ∃ rest, splitLine 17 ("hello world this".toList.drop (5 + 1)) ((7 : Nat) : Int) = .ok rest ∧
        splitLine 17 "hello world this".toList ((7 : Nat) : Int)
          = .ok ("hello world this".toList.take 5 :: rest) :=
  have hmax : ∀ k, 5 < k → k ≤ 7 → "hello world this".toList[k]? ≠ some ' ' := by
    intro k h1 h2
    have hk : k = 6 ∨ k = 7 := by omega
    rcases hk with rfl | rfl <;> decide
  ⟨by decide, by decide, by decide, by decide, hmax,
    splitLine_breaks_at_last_space 17 "hello world this".toList 7 5 (by decide) (by decide)
      (by decide) (by decide) hmax (by decide)⟩

/-- C17, as stated, fails: `ab cd` has no space among its first 2 bytes, yet
`splitLine` with width 2 is not `ab` followed by `splitLine` of the rest ` cd`.
The search starts at index 2, finds the space there and drops it: the result
is `ab`, `cd`, while `splitLine` of ` cd` is the empty segment and `cd`. -/
theorem splitLine_hard_break_counterexample :
    (∀ k, k < 2 → "ab cd".toList[k]? ≠ some ' ') ∧
      splitLine 6 "ab cd".toList 2 = .ok ["ab".toList, "cd".toList] ∧
      splitLine 6 ("ab cd".toList.drop 2) 2 = .ok [[], "cd".toList] ∧
      ¬ ∃ rest, splitLine 6 ("ab cd".toList.drop 2) 2 = .ok rest ∧
        splitLine 6 "ab cd".toList 2 = .ok ("ab cd".toList.take 2 :: rest) := by
  have h1 : splitLine 6 "ab cd".toList 2 = .ok ["ab".toList, "cd".toList] := rfl
  have h2 : splitLine 6 ("ab cd".toList.drop 2) 2 = .ok [[], "cd".toList] := rfl
  refine ⟨by decide, h1, h2, ?_⟩
  rintro ⟨rest, hr1, hr2⟩
  rw [h2] at hr1
  rw [h1] at hr2
  injection hr1 with hr1
  injection hr2 with hr2
  rw [← hr1] at hr2
  revert hr2
  decide

/-- C17, amended: for every width of at least 1 and every string `s` longer
than the width that has no space among its first `width + 1` bytes (indices 0
to `width`), `splitLine(s, width)` is the segment `s[0..width)` followed by
`splitLine(s[width..], width)`: the break is at exactly `width` bytes and no
byte of `s` is dropped. -/
theorem splitLine_hard_break (fuel : Nat) (s : GoString) (w : Nat) (hw : 1 ≤ w)
    (hlen : w < s.length) (hno : ∀ k, k ≤ w → s[k]? ≠ some ' ') (hf : s.length < fuel) :
    (∃ rest, splitLine fuel (s.drop w) (w : Int) = .ok rest ∧
      splitLine fuel s (w : Int) = .ok (s.take w :: rest)) ∧
      s.take w ++ s.drop w = s :=
  ⟨splitLine_cons_of_no_space fuel s w hw hlen (scanBack_no_space s w hno) hf,
    List.take_append_drop w s⟩

/-- Witness of amended C17: `abcde f` with width 3 has no space at indices 0 to 3. -/
theorem splitLine_hard_break_witness :
    1 ≤ 3 ∧ 3 < "abcde f".toList.length ∧
      (∀ k, k ≤ 3 → "abcde f".toList[k]? ≠ some ' ') ∧
      (∃ rest, splitLine 8 ("abcde f".toList.drop 3) ((3 : Nat) : Int) = .ok rest ∧
        splitLine 8 "abcde f".toList ((3 : Nat) : Int)
          = .ok ("abcde f".toList.take 3 :: rest)) :=
  ⟨by decide, by decide, by decide,
    (splitLine_hard_break 8 "abcde f".toList 3 (by decide) (by decide) (by decide)
      (by decide)).1⟩

/-- C18: for every string `s` and every width of at least 1, `splitLine`
terminates.  An iteration of the outer loop on a text longer than the width
either finds a space at an index `j` and goes on with the text after it,
`j + 1` bytes shorter, or makes a hard break and goes on with a text `width`
bytes shorter; in both cases the remaining text is strictly shorter.  Hence
any fuel above the length of `s` lets `splitLine` return. -/
theorem splitLine_terminates (s : GoString) (w : Nat) (hw : 1 ≤ w) :
    (w < s.length → ∃ seg rest, rest.length < s.length ∧
      ((∃ j : Nat, scanBack s w = (j : Int) ∧ seg = s.take j ∧ rest = s.drop (j + 1) ∧
          rest.length + (j + 1) = s.length) ∨
        (scanBack s w = -1 ∧ seg = s.take w ∧ rest = s.drop w ∧
          rest.length + w = s.length)) ∧
      ∀ fuel parts, splitLineLoop (fuel + 1) s (w : Int) parts
        = splitLineLoop fuel rest (w : Int) (parts ++ [seg])) ∧
    (∀ fuel, s.length < fuel → ∃ parts, splitLine fuel s (w : Int) = .ok parts) := by
  constructor
  · intro hlen
    rcases scanBack_range s w with h | ⟨h0, hle⟩
    · refine ⟨s.take w, s.drop w, by rw [List.length_drop]; omega,
        Or.inr ⟨h, rfl, rfl, by rw [List.length_drop]; omega⟩, ?_⟩
      intro fuel parts
      exact splitLineLoop_hard fuel s w parts hlen h
    · obtain ⟨j, hj⟩ := Int.eq_ofNat_of_zero_le h0
      have hjw : j ≤ w := by omega
      refine ⟨s.take j, s.drop (j + 1), by rw [List.length_drop]; omega,
        Or.inl ⟨j, hj, rfl, rfl, by rw [List.length_drop]; omega⟩, ?_⟩
      intro fuel parts
      exact splitLineLoop_space fuel s w j parts hlen hj
  · intro fuel hf
    exact splitLineLoop_terminates fuel s w [] hw hf

/-- Witness of C18: `hello world` with width 7. -/
theorem splitLine_terminates_witness :
    1 ≤ 7 ∧ ∃ parts, splitLine 12 "hello world".toList ((7 : Nat) : Int) = .ok parts :=
  ⟨by decide, (splitLine_terminates "hello world".toList 7 (by decide)).2 12 (by decide)⟩

/-! ## Lemmas: widths below 1 -/

/-- With width 0 an iteration on a non-empty text that does not start with a
space appends the empty part and leaves the text as it is: the loop never ends. -/
theorem splitLineLoop_zero_stuck (fuel : Nat) (s : GoString) (parts : List GoString)
    (hne : s ≠ []) (h0 : s[0]? ≠ some ' ') :
    splitLineLoop fuel s 0 parts = .error .outOfFuel := by
  induction fuel generalizing parts with
  | zero => rfl
  | succ fuel ih =>
    have hlen : ((s.length : Int) > 0) := by
      have : 0 < s.length := List.length_pos.2 hne
      omega
    have hscan : scanBack s 0 = -1 := by
      unfold scanBack
      rw [if_neg h0]
    rw [splitLineLoop, if_pos hlen]
    simp only [Int.toNat_zero, hscan, Int.lt_irrefl, if_false, List.drop_zero]
    exact ih _

/-- A negative indent makes `wrapLine` panic in `strings.Repeat`. -/
theorem wrapLine_negative_indent (fuel : Nat) (line : GoString) (lineWidth indent : Int)
    (h : indent < 0) : wrapLine fuel line lineWidth indent = .error .panic := by
  simp only [wrapLine, stringsRepeat, h, if_true]

/-! ## Lemmas: the content kept by wrapping -/

theorem dropSpacesNewlines_eq (t : GoString) :
    dropSpacesNewlines t = (dropSpaces t).filter (fun c => decide (c ≠ newline)) := by
  simp only [dropSpacesNewlines, dropSpaces, List.filter_filter]
  congr 1
  funext c
  exact Bool.and_comm _ _

theorem dropSpacesNewlines_append (a b : GoString) :
    dropSpacesNewlines (a ++ b) = dropSpacesNewlines a ++ dropSpacesNewlines b := by
  simp [dropSpacesNewlines]

theorem dropSpacesNewlines_spaces (n : Nat) :
    dropSpacesNewlines (List.replicate n ' ') = [] := by
  induction n with
  | zero => rfl
  | succ n ih =>
    rw [List.replicate_succ]
    simp only [dropSpacesNewlines, List.filter_cons] at ih ⊢
    simp [ih]

theorem dropSpacesNewlines_join (ps : List GoString) :
    dropSpacesNewlines (stringsJoin ps [newline]) = dropSpacesNewlines ps.flatten := by
  induction ps with
  | nil => rfl
  | cons p ps ih =>
    cases ps with
    | nil => simp [stringsJoin]
    | cons q rest =>
      have hnl : dropSpacesNewlines [newline] = [] := by decide
      rw [stringsJoin, dropSpacesNewlines_append, dropSpacesNewlines_append, ih, hnl,
        List.append_nil]
      conv => rhs; rw [List.flatten_cons, dropSpacesNewlines_append]

theorem dropSpacesNewlines_padded (n : Nat) (ps : List GoString) :
    dropSpacesNewlines (ps.map (fun p => List.replicate n ' ' ++ p)).flatten
      = dropSpacesNewlines ps.flatten := by
  induction ps with
  | nil => rfl
  | cons p ps ih =>
    rw [List.map_cons, List.flatten_cons, List.flatten_cons, dropSpacesNewlines_append,
      dropSpacesNewlines_append, dropSpacesNewlines_append, dropSpacesNewlines_spaces, ih,
      List.nil_append]

theorem filter_newline_of_not_mem (t : GoString) (h : newline ∉ dropSpaces t) :
    (dropSpaces t).filter (fun c => decide (c ≠ newline)) = dropSpaces t := by
  rw [List.filter_eq_self]
  intro c hc
  have : c ≠ newline := fun hcn => h (hcn ▸ hc)
  simpa using this

/-! ## Claims about progress and content of the line wrapper -/

/-- C14 (evaluation of the code): with line width 4 and indent 4 the width
handed to `splitLine` is 0.  On the line `abcde` every iteration of the split
loop appends the empty part `s[:0]` and leaves the remaining text `s[0:]` as
it was, so no amount of fuel lets `splitLine`, `wrapLine` or `dumpYAML` return. -/
theorem wrapLine_no_progress (fuel : Nat) :
    splitLine fuel "abcde".toList (4 - 4) = .error .outOfFuel ∧
      wrapLine fuel "abcde".toList 4 4 = .error .outOfFuel ∧
      dumpYAML (fun _ => .ok "abcde\n".toList) fuel .null 4 "single".toList 4
        = .error .outOfFuel := by
  have hsplit : ∀ parts, splitLineLoop fuel "abcde".toList 0 parts = .error .outOfFuel :=
    fun parts => splitLineLoop_zero_stuck fuel _ parts (by decide) (by decide)
  have hwrap : wrapLine fuel "abcde".toList 4 4 = .error .outOfFuel := by
    have hrep : stringsRepeat [' '] 4 = .ok (List.replicate 4 ' ') := stringsRepeat_space 4 (by decide)
    have hw : (4 : Int) - ((List.replicate 4 ' ').length : Int) = 0 := by decide
    simp only [wrapLine, hrep, hw, splitLine, hsplit]
  refine ⟨hsplit [], hwrap, ?_⟩
  have hlines : stringsSplit "abcde\n".toList [newline] = ["abcde".toList, []] := by decide
  have hpos : ((4 : Int) > 0) := by decide
  have hlong : ((("abcde".toList).length : Int) > 4) := by decide
  have hdump : dumpYAML (fun _ => .ok "abcde\n".toList) fuel .null 4 "single".toList 4
      = wrapText fuel "abcde\n".toList 4 4 := by
    simp only [dumpYAML, quoteText_single]
  rw [hdump, wrapText, if_pos hpos, hlines, mapExcept, if_pos hlong, hwrap]

/-- C19, as stated, fails for a negative indent: with line width 5 and indent
-1 the difference is 6, but `wrapLine` panics in `strings.Repeat` and returns
no text. -/
theorem wrapLine_negative_indent_counterexample :
    newline ∉ "abc".toList ∧ (1 : Int) ≤ 5 - (-1) ∧
      ∀ fuel, wrapLine fuel "abc".toList 5 (-1) = .error .panic :=
  ⟨by decide, by decide, fun fuel => wrapLine_negative_indent fuel _ 5 (-1) (by decide)⟩

/-- C19, amended: wrapping never drops, alters or reorders non-space content.
For every string `s` and every width of at least 1, deleting the spaces from
the concatenation of the segments of `splitLine(s, width)` gives `s` without
its spaces; hence for a line without newlines, `indent >= 0` and
`lineWidth - indent >= 1`, deleting all spaces and newlines from
`wrapLine(line, lineWidth, indent)` gives the line without its spaces. -/
theorem wrapping_keeps_content (fuel : Nat) (s : GoString) (hf : s.length < fuel) :
    (∀ w : Nat, 1 ≤ w → ∃ parts, splitLine fuel s (w : Int) = .ok parts ∧
      dropSpaces parts.flatten = dropSpaces s) ∧
    (∀ lineWidth indent : Int, newline ∉ s → 0 ≤ indent → 1 ≤ lineWidth - indent →
      ∃ out, wrapLine fuel s lineWidth indent = .ok out ∧
        dropSpacesNewlines out = dropSpaces s) := by
  constructor
  · intro w hw
    obtain ⟨segs, h1, _, h3⟩ := splitLineLoop_segments fuel s w hw hf
    exact ⟨segs, by rw [splitLine, h1]; rfl, h3⟩
  · intro lineWidth indent hnl h0 h1
    obtain ⟨w, hw⟩ := Int.eq_ofNat_of_zero_le (by omega : 0 ≤ lineWidth - indent)
    obtain ⟨segs, hs1, _, hs3⟩ := splitLineLoop_segments fuel s w (by omega) hf
    have hsplit : splitLine fuel s (lineWidth - indent) = .ok segs := by
      rw [hw, splitLine, hs1]; rfl
    refine ⟨_, wrapLine_of_parts fuel s lineWidth indent segs h0 (by omega) hsplit, ?_⟩
    rw [dropSpacesNewlines_join, List.flatten_append, dropSpacesNewlines_append,
      dropSpacesNewlines_padded, dropSpacesNewlines_padded, ← dropSpacesNewlines_append,
      ← List.flatten_append, List.take_append_drop, dropSpacesNewlines_eq, hs3]
    apply filter_newline_of_not_mem
    intro hmem
    exact hnl (List.mem_of_mem_filter hmem)

/-- Witness of amended C19: `hello world this is a test`, width 7, and line
width 9 with indent 2. -/
theorem wrapping_keeps_content_witness :
    "hello world this is a test".toList.length < 27 ∧
      (∃ parts, splitLine 27 "hello world this is a test".toList ((7 : Nat) : Int) = .ok parts ∧
        dropSpaces parts.flatten = dropSpaces "hello world this is a test".toList) ∧
      (∃ out, wrapLine 27 "hello world this is a test".toList 9 2 = .ok out ∧
        dropSpacesNewlines out = dropSpaces "hello world this is a test".toList) :=
  ⟨by decide,
    (wrapping_keeps_content 27 "hello world this is a test".toList (by decide)).1 7
      (by decide),
    (wrapping_keeps_content 27 "hello world this is a test".toList (by decide)).2 9 2
      (by decide) (by decide) (by decide)⟩

/-! ## Lemmas: the lines of a wrapped text -/

theorem splitScan_no_sep (c : Char) (cur p : GoString) (h : c ∉ p) :
    splitScan [c] 0 cur p = [cur ++ p] := by
  induction p generalizing cur with
  | nil => simp [splitScan]
  | cons d ds ih =>
    have hd : d ≠ c := fun hdc => h (hdc ▸ List.mem_cons_self _ _)
    have hds : c ∉ ds := fun hm => h (List.mem_cons_of_mem _ hm)
    have hst : startsWith (d :: ds) [c] = false := by simp [startsWith, hd]
    rw [splitScan, hst]
    simp only [Bool.false_eq_true, if_false]
    rw [ih _ hds]
    simp

theorem splitScan_piece (c : Char) (cur p rest : GoString) (h : c ∉ p) :
    splitScan [c] 0 cur (p ++ c :: rest) = (cur ++ p) :: splitScan [c] 0 [] rest := by
  induction p generalizing cur with
  | nil =>
    have hst : startsWith (c :: rest) [c] = true := by simp [startsWith]
    rw [List.nil_append, splitScan, if_pos hst]
    simp
  | cons d ds ih =>
    have hd : d ≠ c := fun hdc => h (hdc ▸ List.mem_cons_self _ _)
    have hds : c ∉ ds := fun hm => h (List.mem_cons_of_mem _ hm)
    have hst : startsWith (d :: (ds ++ c :: rest)) [c] = false := by simp [startsWith, hd]
    rw [List.cons_append, splitScan, hst]
    simp only [Bool.false_eq_true, if_false]
    rw [ih _ hds]
    simp

/-- The lines of a newline join of newline-free pieces are the pieces. -/
theorem split_join_newline (ps : List GoString) (hne : ps ≠ [])
    (h : ∀ p ∈ ps, newline ∉ p) :
    stringsSplit (stringsJoin ps [newline]) [newline] = ps := by
  induction ps with
  | nil => exact absurd rfl hne
  | cons p ps ih =>
    cases ps with
    | nil =>
      simp only [stringsJoin, stringsSplit]
      rw [splitScan_no_sep newline [] p (h p (List.mem_cons_self _ _))]
      simp
    | cons q rest =>
      have ih2 := ih (by simp) (fun x hx => h x (List.mem_cons_of_mem _ hx))
      simp only [stringsSplit] at ih2 ⊢
      rw [stringsJoin, List.append_assoc, List.singleton_append,
        splitScan_piece newline [] p _ (h p (List.mem_cons_self _ _)), ih2]
      simp

theorem not_mem_segments_of_not_mem (s : GoString) (segs : List GoString) (c : Char)
    (hc : c ≠ ' ') (hkeep : dropSpaces segs.flatten = dropSpaces s) (hs : c ∉ s) :
    ∀ p ∈ segs, c ∉ p := by
  intro p hp hcp
  have h1 : c ∈ segs.flatten := List.mem_flatten.2 ⟨p, hp, hcp⟩
  have h2 : c ∈ dropSpaces segs.flatten := by
    simp only [dropSpaces, List.mem_filter]
    exact ⟨h1, by simpa using hc⟩
  rw [hkeep] at h2
  exact hs (List.mem_of_mem_filter h2)

/-- C20: for every line and every line width and indent with
`0 <= indent < lineWidth`, `wrapLine` returns the newline join of one output
line per segment of `splitLine` (for a line without newline these are the
lines of the returned text).  The first output line has length at most
`lineWidth`; every later one has length exactly `indent + lineWidth` plus the
length of its segment, which is at least `lineWidth` and strictly greater
whenever `indent > 0` or the segment is non-empty.  So wrapped output can hold
lines longer than `lineWidth`: `aaaaaa` wrapped at width 4 with indent 0 has
the second line `    aa` of length 6. -/
theorem wrapLine_line_lengths (fuel : Nat) (line : GoString) (lineWidth indent : Int)
    (h0 : 0 ≤ indent) (h1 : indent < lineWidth) (hf : line.length < fuel) :
    (∃ parts lines, splitLine fuel line (lineWidth - indent) = .ok parts ∧
      wrapLine fuel line lineWidth indent = .ok (stringsJoin lines [newline]) ∧
      lines.length = parts.length ∧
      (newline ∉ line → parts ≠ [] →
        stringsSplit (stringsJoin lines [newline]) [newline] = lines) ∧
      (∀ l, lines[0]? = some l → (l.length : Int) ≤ lineWidth) ∧
      (∀ (k : Nat) (l seg : GoString), 1 ≤ k → lines[k]? = some l → parts[k]? = some seg →
        (l.length : Int) = indent + lineWidth + seg.length ∧
          lineWidth ≤ (l.length : Int) ∧
          ((0 < indent ∨ seg ≠ []) → lineWidth < (l.length : Int)))) ∧
    (wrapLine 7 "aaaaaa".toList 4 0 = .ok "aaaa\n    aa".toList ∧
      stringsSplit "aaaa\n    aa".toList [newline] = ["aaaa".toList, "    aa".toList] ∧
      4 < "    aa".toList.length) := by
  refine ⟨?_, rfl, by decide, by decide⟩
  obtain ⟨w, hw⟩ := Int.eq_ofNat_of_zero_le (by omega : 0 ≤ lineWidth - indent)
  obtain ⟨segs, hs1, hs2, hs3⟩ := splitLineLoop_segments fuel line w (by omega) hf
  have hsplit : splitLine fuel line (lineWidth - indent) = .ok segs := by
    rw [hw, splitLine, hs1]; rfl
  have hpad : ∀ n : Nat, newline ∉ List.replicate n ' ' := by
    intro n hm
    exact absurd (List.eq_of_mem_replicate hm) (by decide)
  refine ⟨segs, _, hsplit,
    wrapLine_of_parts fuel line lineWidth indent segs h0 (by omega) hsplit, ?_, ?_, ?_, ?_⟩
  · cases segs <;> simp
  · intro hnl hne
    have hseg := not_mem_segments_of_not_mem line segs newline (by decide) hs3 hnl
    apply split_join_newline
    · cases segs with
      | nil => exact absurd rfl hne
      | cons p ps => simp
    · intro x hx
      rcases List.mem_append.1 hx with hx | hx
      · obtain ⟨p, hp, rfl⟩ := List.mem_map.1 hx
        intro hm
        rcases List.mem_append.1 hm with hm | hm
        · exact hpad _ hm
        · exact hseg p (List.mem_of_mem_take hp) hm
      · obtain ⟨p, hp, rfl⟩ := List.mem_map.1 hx
        intro hm
        rcases List.mem_append.1 hm with hm | hm
        · exact hpad _ hm
        · exact hseg p (List.mem_of_mem_drop hp) hm
  · intro l hl
    cases segs with
    | nil => simp at hl
    | cons p ps =>
      simp only [List.take_succ_cons, List.take_zero, List.map_cons, List.map_nil,
        List.singleton_append, List.getElem?_cons_zero, Option.some.injEq] at hl
      subst hl
      have hp := hs2 p (List.mem_cons_self _ _)
      rw [List.length_append, List.length_replicate]
      have : ((indent.toNat : Nat) : Int) = indent := Int.toNat_of_nonneg h0
      omega
  · intro k l seg hk hl hseg
    cases segs with
    | nil => simp at hseg
    | cons p ps =>
      obtain ⟨k2, rfl⟩ : ∃ k2, k = k2 + 1 := ⟨k - 1, by omega⟩
      simp only [List.take_succ_cons, List.take_zero, List.map_cons, List.map_nil,
        List.singleton_append, List.drop_succ_cons, List.drop_zero,
        List.getElem?_cons_succ, List.getElem?_map] at hl hseg
      rw [hseg] at hl
      simp only [Option.map_some', Option.some.injEq] at hl
      subst hl
      have hlen : (((List.replicate (indent + lineWidth).toNat ' ' ++ seg).length : Nat) : Int)
          = indent + lineWidth + seg.length := by
        rw [List.length_append, List.length_replicate]
        have : (((indent + lineWidth).toNat : Nat) : Int) = indent + lineWidth :=
          Int.toNat_of_nonneg (by omega)
        omega
      refine ⟨hlen, by omega, ?_⟩
      intro hor
      rcases hor with hi | hne
      · omega
      · have : 0 < seg.length := List.length_pos.2 hne
        omega

/-- Witness of C20: `hello world this is a test` wrapped at line width 9 with
indent 2. -/
theorem wrapLine_line_lengths_witness :
    (0 : Int) ≤ 2 ∧ (2 : Int) < 9 ∧ "hello world this is a test".toList.length < 27 ∧
      ∃ parts lines, splitLine 27 "hello world this is a test".toList (9 - 2) = .ok parts ∧
        wrapLine 27 "hello world this is a test".toList 9 2
          = .ok (stringsJoin lines [newline]) ∧
        lines.length = parts.length ∧
        (newline ∉ "hello world this is a test".toList → parts ≠ [] →
          stringsSplit (stringsJoin lines [newline]) [newline] = lines) ∧
        (∀ l, lines[0]? = some l → (l.length : Int) ≤ 9) ∧
        (∀ (k : Nat) (l seg : GoString), 1 ≤ k → lines[k]? = some l → parts[k]? = some seg →
          (l.length : Int) = 2 + 9 + seg.length ∧ 9 ≤ (l.length : Int) ∧
            ((0 < (2 : Int) ∨ seg ≠ []) → 9 < (l.length : Int))) :=
  ⟨by decide, by decide, by decide,
    (wrapLine_line_lengths 27 "hello world this is a test".toList 9 2 (by decide) (by decide)
      (by decide)).1⟩

/-! ## Lemmas: `main` -/

/-- Evaluation of `sortKeys` on `{z: {y: 1, x: 2}}`. -/
theorem sortKeys_nestedDoc : sortKeys nestedDoc = .ok sortedNestedDoc := by
  simp [nestedDoc, sortedNestedDoc, sortKeys_map, sortKeys_scalar, mapExcept, foldExcept,
    assertString, sortStrings, strLe, mapIndex, mapAssign, Key.ofString]

/-- The text of `sampleMarshal` passes `dumpYAML` unchanged at line width 1000. -/
theorem dumpYAML_sample (fuel : Nat) (data : Value) (indent : Int) :
    dumpYAML sampleMarshal fuel data indent "single".toList 1000
      = .ok "z:\n    x: 2\n    y: 1\n".toList := by
  have h : sampleMarshal data = .ok "z:\n    x: 2\n    y: 1\n".toList := rfl
  simp only [dumpYAML, h, quoteText_single]
  exact wrapText_short fuel _ indent 1000 (Or.inr (by decide))

theorem inputFiles_dash (positional : List GoString) :
    inputFiles positional "-".toList = positional := by
  simp [inputFiles]

theorem inputFiles_path (positional : List GoString) (input : GoString)
    (h : input ≠ "-".toList) : inputFiles positional input = positional ++ [input] := by
  simp only [inputFiles, h, ne_eq, not_false_eq_true, if_true]

/-- Running the pipeline on its own output returns that output again, provided
the decoder reads the output back as the sorted tree it was produced from. -/
theorem canonicalize_stable_of_reparse (parse : GoString → Except Fault Value)
    (marshal : Value → Except Fault GoString) (fuel : Nat) (opts : Options)
    (x out : GoString) (parsed sorted : Value) (hp : parse x = .ok parsed)
    (hs : parsed.stringKeys = true) (hu : parsed.uniqueKeys = true)
    (hsort : sortKeys parsed = .ok sorted)
    (hout : canonicalize parse marshal fuel opts x = .ok out)
    (hre : parse out = .ok sorted) :
    canonicalize parse marshal fuel opts out = .ok out := by
  obtain ⟨r, hr, h1, h2, h3, _⟩ := sortKeys_spec parsed hs hu
  have hrs : r = sorted := by
    rw [hr] at hsort
    exact Except.ok.inj hsort
  subst hrs
  have hfix := sortKeys_fixed r h1 h2 h3
  simp only [canonicalize, hp, hr] at hout
  simp only [canonicalize, hre, hfix]
  exact hout

/-! ## Claims about `main` -/

/-- C12 (evaluation of the code): the value `-` of `input` is never added to
the list of files, which then is the list of positional arguments alone; only
a value other than `-` is appended.  So an invocation with the one flag
`--indent 4` (three elements in `os.Args`), the default `input` and no
positional argument runs the loop over no file at all: whatever standard
input holds, `main` does nothing and ends with exit code 0. -/
theorem mainRun_skips_standard_input (env : Nat → Env)
    (parse : GoString → Except Fault Value) (marshal : Value → Except Fault GoString)
    (fuel : Nat) :
    (∀ positional, inputFiles positional "-".toList = positional) ∧
      (∀ positional input, input ≠ "-".toList →
        inputFiles positional input = positional ++ [input]) ∧
      "-".toList ∉ inputFiles [] defaultOptions.input ∧
      mainRun env parse marshal fuel 3 { defaultOptions with indent := 4 } []
        = ([], .code 0) :=
  ⟨inputFiles_dash, inputFiles_path, by decide, rfl⟩

/-- C13: for an input that was read, decoded, sorted (outside check mode) and
dumped to `outContent`, the destination of the result is decided in this
order.  In check mode the result is neither printed nor written (the only
output is the "not sorted" message when the result differs from the input).
Otherwise it is printed to standard output exactly when the `stdout` flag is
set or the input is `-` and `output` is empty.  Otherwise it is written to the
`output` path when that is non-empty and to the path of the input file itself
when `output` is empty. -/
theorem processFile_routes_result (env : Env) (parse : GoString → Except Fault Value)
    (marshal : Value → Except Fault GoString) (fuel : Nat) (opts : Options)
    (file content outContent : GoString) (parsed data : Value)
    (hterm : ¬ (file = "-".toList ∧ env.stdinIsTerminal = true))
    (hread : env.read file = .ok content) (hparse : parse content = .ok parsed)
    (hsort : (if opts.check then Except.ok parsed else sortKeys parsed) = .ok data)
    (hdump : dumpYAML marshal fuel data opts.indent opts.quotingStyle opts.lineWidth
      = .ok outContent) :
    (opts.check = true →
      processFile env parse marshal fuel opts file
        = if outContent ≠ content then .done [.notSorted file] false else .done [] true) ∧
    (opts.check = false → (opts.stdout = true ∨ (file = "-".toList ∧ opts.output = [])) →
      processFile env parse marshal fuel opts file = .done [.print outContent] true) ∧
    (opts.check = false → ¬ (opts.stdout = true ∨ (file = "-".toList ∧ opts.output = [])) →
      (opts.output ≠ [] →
        processFile env parse marshal fuel opts file
          = if env.writeOk opts.output then .done [.write opts.output outContent] true
            else .done [.write opts.output outContent, .errorLine] false) ∧
      (opts.output = [] →
        processFile env parse marshal fuel opts file
          = if env.writeOk file then .done [.write file outContent] true
            else .done [.write file outContent, .errorLine] false)) := by
  have hgate : (decide (file = "-".toList) && env.stdinIsTerminal) = false := by
    cases hd : decide (file = "-".toList) with
    | false => rfl
    | true =>
      cases ht : env.stdinIsTerminal with
      | false => rfl
      | true => exact absurd ⟨of_decide_eq_true hd, ht⟩ hterm
  refine ⟨?_, ?_, ?_⟩
  · intro hc
    rw [hc, if_pos rfl] at hsort
    have hd : parsed = data := Except.ok.inj hsort
    subst hd
    simp only [processFile, hgate, hread, hparse, hdump, hc, Bool.false_eq_true,
      if_false, if_true]
  · intro hc hor
    rw [hc] at hsort
    simp only [Bool.false_eq_true, if_false] at hsort
    have hcond : (opts.stdout || (decide (file = "-".toList) && decide (opts.output = [])))
        = true := by
      rcases hor with h | ⟨h1, h2⟩
      · simp [h]
      · simp [h1, h2]
    simp only [processFile, hgate, hread, hparse, hsort, hdump, hc, hcond,
      Bool.false_eq_true, if_false, if_true]
  · intro hc hnor
    rw [hc] at hsort
    simp only [Bool.false_eq_true, if_false] at hsort
    have hcond : (opts.stdout || (decide (file = "-".toList) && decide (opts.output = [])))
        = false := by
      cases hs : opts.stdout with
      | true => exact absurd (Or.inl hs) hnor
      | false =>
        cases hd : (decide (file = "-".toList) && decide (opts.output = [])) with
        | false => rfl
        | true =>
          rw [Bool.and_eq_true] at hd
          exact absurd (Or.inr ⟨of_decide_eq_true hd.1, of_decide_eq_true hd.2⟩) hnor
    have hmain : processFile env parse marshal fuel opts file
        = if env.writeOk (if opts.output = [] then file else opts.output) then
            .done [.write (if opts.output = [] then file else opts.output) outContent] true
          else .done [.write (if opts.output = [] then file else opts.output) outContent,
            .errorLine] false := by
      simp only [processFile, hgate, hread, hparse, hsort, hdump, hc, hcond,
        Bool.false_eq_true, if_false]
    constructor
    · intro hout
      rw [hmain, if_neg hout]
    · intro hout
      rw [hmain, if_pos hout]

/-- Witness of C13 with the sample decoder and encoder: check mode on a file in
canonical form does nothing; the default options print the result for the
input `-`; a file is written to `out.yml` when that is the `output` path and
over itself when `output` is empty. -/
theorem processFile_routes_result_witness :
    processFile sampleEnv sampleParse sampleMarshal 0
        { defaultOptions with check := true } "in.yml".toList = .done [] true ∧
      processFile sampleEnv sampleParse sampleMarshal 0 defaultOptions "-".toList
        = .done [.print "z:\n    x: 2\n    y: 1\n".toList] true ∧
      processFile sampleEnv sampleParse sampleMarshal 0
        { defaultOptions with output := "out.yml".toList } "in.yml".toList
        = .done [.write "out.yml".toList "z:\n    x: 2\n    y: 1\n".toList] true ∧
      processFile sampleEnv sampleParse sampleMarshal 0 defaultOptions "in.yml".toList
        = .done [.write "in.yml".toList "z:\n    x: 2\n    y: 1\n".toList] true := by
  refine ⟨?_, ?_, ?_, ?_⟩
  · have h := (processFile_routes_result sampleEnv sampleParse sampleMarshal 0
      { defaultOptions with check := true } "in.yml".toList
      "z:\n    x: 2\n    y: 1\n".toList "z:\n    x: 2\n    y: 1\n".toList
      nestedDoc nestedDoc (by decide) rfl rfl rfl (dumpYAML_sample 0 nestedDoc 2)).1 rfl
    rw [h, if_neg (by simp)]
  · exact (processFile_routes_result sampleEnv sampleParse sampleMarshal 0
      defaultOptions "-".toList
      "z:\n    x: 2\n    y: 1\n".toList "z:\n    x: 2\n    y: 1\n".toList
      nestedDoc sortedNestedDoc (by decide) rfl rfl sortKeys_nestedDoc
      (dumpYAML_sample 0 sortedNestedDoc 2)).2.1 rfl (Or.inr ⟨rfl, rfl⟩)
  · have h := ((processFile_routes_result sampleEnv sampleParse sampleMarshal 0
      { defaultOptions with output := "out.yml".toList } "in.yml".toList
      "z:\n    x: 2\n    y: 1\n".toList "z:\n    x: 2\n    y: 1\n".toList
      nestedDoc sortedNestedDoc (by decide) rfl rfl sortKeys_nestedDoc
      (dumpYAML_sample 0 sortedNestedDoc 2)).2.2 rfl (by decide)).1 (by decide)
    rw [h]
    rfl
  · have h := ((processFile_routes_result sampleEnv sampleParse sampleMarshal 0
      defaultOptions "in.yml".toList
      "z:\n    x: 2\n    y: 1\n".toList "z:\n    x: 2\n    y: 1\n".toList
      nestedDoc sortedNestedDoc (by decide) rfl rfl sortKeys_nestedDoc
      (dumpYAML_sample 0 sortedNestedDoc 2)).2.2 rfl (by decide)).2 rfl
    rw [h]
    rfl

end YamlSort
